import Mathlib

/-!
Verification of the pokertool repository's Range & Equity engine.

Python strings are modelled as `List Char` (a Python `str` is a sequence of
code points), Python numbers (`int`/`float`) as `ℚ`, Python sets as `Finset`
(or as `Nodup` lists where iteration order matters), and randomness as an
explicit oracle argument.  All definitions are translated from the repository
sources (`poker_logic.py`, `poker_logic_bkp.py` and the unnamed app file
containing the range codec).
-/

set_option maxHeartbeats 1000000
set_option maxRecDepth 100000

/-- A Python string, modelled as its sequence of characters. -/
abbrev Str := List Char

/-- Coerce a Lean string literal to the `Str` model. -/
def strOf (s : String) : Str := s.toList

/-- `RANKS = "AKQJT98765432"` from `poker_logic.py`. -/
def RANKS : Str := strOf "AKQJT98765432"

/-- `TOTAL_COMBOS = 1326` from `poker_logic.py`. -/
def TOTAL_COMBOS : ℕ := 1326

/-- Python `RANKS.index(c)`: position of `c` in `RANKS` (13 when absent;
the Python call raises `ValueError` then, and every use site catches it). -/
def rankIdx (c : Char) : ℕ := RANKS.indexOf c

/-- `get_all_hands` from `poker_logic_bkp.py` (imported by the app file):
the 169 canonical hand strings, generated by the nested loop
`for i in range(13): for j in range(i, 13): ...`. -/
def get_all_hands : List Str :=
  (List.range RANKS.length).flatMap fun i =>
    (List.range' i (RANKS.length - i)).flatMap fun j =>
      if i = j then [[RANKS.getD i 'A', RANKS.getD j 'A']]
      else [[RANKS.getD i 'A', RANKS.getD j 'A', 's'],
            [RANKS.getD i 'A', RANKS.getD j 'A', 'o']]

/-- `SIMPLIFIED_HAND_RANKING` from `poker_logic.py`: the fixed strength order
(pairs, then suited by high card, then offsuit by high card). -/
def SIMPLIFIED_HAND_RANKING : List Str :=
  ([ "AA","KK","QQ","JJ","TT","99","88","77","66","55","44","33","22",
     "AKs","AQs","AJs","ATs","A9s","A8s","A7s","A6s","A5s","A4s","A3s","A2s",
     "KQs","KJs","KTs","K9s","K8s","K7s","K6s","K5s","K4s","K3s","K2s",
     "QJs","QTs","Q9s","Q8s","Q7s","Q6s","Q5s","Q4s","Q3s","Q2s",
     "JTs","J9s","J8s","J7s","J6s","J5s","J4s","J3s","J2s",
     "T9s","T8s","T7s","T6s","T5s","T4s","T3s","T2s",
     "98s","97s","96s","95s","94s","93s","92s",
     "87s","86s","85s","84s","83s","82s",
     "76s","75s","74s","73s","72s",
     "65s","64s","63s","62s",
     "54s","53s","52s",
     "43s","42s",
     "32s",
     "AKo","AQo","AJo","ATo","A9o","A8o","A7o","A6o","A5o","A4o","A3o","A2o",
     "KQo","KJo","KTo","K9o","K8o","K7o","K6o","K5o","K4o","K3o","K2o",
     "QJo","QTo","Q9o","Q8o","Q7o","Q6o","Q5o","Q4o","Q3o","Q2o",
     "JTo","J9o","J8o","J7o","J6o","J5o","J4o","J3o","J2o",
     "T9o","T8o","T7o","T6o","T5o","T4o","T3o","T2o",
     "98o","97o","96o","95o","94o","93o","92o",
     "87o","86o","85o","84o","83o","82o",
     "76o","75o","74o","73o","72o",
     "65o","64o","63o","62o",
     "54o","53o","52o",
     "43o","42o",
     "32o" ] : List String).map strOf

/-- `get_hand_combos` from `poker_logic.py`: pair → 6, suited → 4,
offsuit → 12, anything else → 0. -/
def get_hand_combos (hand_str : Str) : ℕ :=
  match hand_str with
  | [a, b] => if a ∈ RANKS ∧ b = a then 6 else 0
  | [a, b, t] =>
    if a ∈ RANKS ∧ b ∈ RANKS ∧ a ≠ b then
      if t = 's' then 4 else if t = 'o' then 12 else 0
    else 0
  | _ => 0

/-- `calculate_range_percentage` from `poker_logic.py`: combo weight of the
range divided by 1326, times 100; an empty range gives `0.0`. -/
def calculate_range_percentage (hand_range : List Str) : ℚ :=
  if hand_range = [] then 0
  else (((hand_range.map get_hand_combos).sum : ℚ) / TOTAL_COMBOS) * 100

/-- The `for hand in SIMPLIFIED_HAND_RANKING` accumulation loop inside
`get_top_hands_by_percentage`: skip zero-combo entries, append while the
running combo count is below the target, break otherwise. -/
def pick_hands_loop (combos_needed : ℚ) : List Str → ℕ → List Str
  | [], _ => []
  | hand :: rest, running =>
    let ccount := get_hand_combos hand
    if ccount = 0 then pick_hands_loop combos_needed rest running
    else if (running : ℚ) < combos_needed then
      hand :: pick_hands_loop combos_needed rest (running + ccount)
    else []

/-- `get_top_hands_by_percentage` from `poker_logic.py`. -/
def get_top_hands_by_percentage (percentage : ℚ) : List Str :=
  if percentage ≤ 0 then []
  else if 100 ≤ percentage then SIMPLIFIED_HAND_RANKING
  else pick_hands_loop ((TOTAL_COMBOS : ℚ) * (percentage / 100)) SIMPLIFIED_HAND_RANKING 0

/-- Combined combo count of a list of hands. -/
def sumCombos (l : List Str) : ℕ := (l.map get_hand_combos).sum

lemma sumCombos_nil : sumCombos [] = 0 := rfl

lemma sumCombos_cons (h : Str) (t : List Str) :
    sumCombos (h :: t) = get_hand_combos h + sumCombos t := by
  simp [sumCombos]

lemma sumCombos_append (a b : List Str) :
    sumCombos (a ++ b) = sumCombos a + sumCombos b := by
  simp [sumCombos]

/-- Every entry of the ranking is a genuine hand class (nonzero combos). -/
lemma ranking_combos_pos : ∀ h ∈ SIMPLIFIED_HAND_RANKING, get_hand_combos h ≠ 0 := by
  decide

lemma ranking_length : SIMPLIFIED_HAND_RANKING.length = 169 := by decide

/-- Under a no-zero-combo hypothesis, the selection loop returns a prefix of
its input list. -/
lemma pick_hands_loop_append (c : ℚ) :
    ∀ (l : List Str) (r : ℕ), (∀ h ∈ l, get_hand_combos h ≠ 0) →
      ∃ t, pick_hands_loop c l r ++ t = l := by
  intro l
  induction l with
  | nil => intro r _; exact ⟨[], rfl⟩
  | cons h rest ih =>
    intro r hnz
    have hh : get_hand_combos h ≠ 0 := hnz h (by simp)
    by_cases hlt : (r : ℚ) < c
    · obtain ⟨t, ht⟩ := ih (r + get_hand_combos h) (fun x hx => hnz x (by simp [hx]))
      refine ⟨t, ?_⟩
      simp only [pick_hands_loop, if_neg hh, if_pos hlt]
      simp [ht]
    · refine ⟨h :: rest, ?_⟩
      simp [pick_hands_loop, if_neg hh, if_neg hlt]

/-- Each element of the selection was appended while the running total was
still below the target: every proper prefix has combo sum `< combos_needed`. -/
lemma pick_hands_loop_partial_sums (c : ℚ) :
    ∀ (l : List Str) (r : ℕ) (k : ℕ), k < (pick_hands_loop c l r).length →
      (r : ℚ) + (sumCombos ((pick_hands_loop c l r).take k) : ℚ) < c := by
  intro l
  induction l with
  | nil => intro r k hk; simp [pick_hands_loop] at hk
  | cons h rest ih =>
    intro r k hk
    by_cases hz : get_hand_combos h = 0
    · simpa [pick_hands_loop, hz] using
        (by simpa [pick_hands_loop, hz] using hk : k < (pick_hands_loop c rest r).length)
        |> ih r k
    · by_cases hlt : (r : ℚ) < c
      · simp only [pick_hands_loop, if_neg hz, if_pos hlt] at hk ⊢
        match k with
        | 0 => simpa [sumCombos] using hlt
        | k + 1 =>
          have hk' : k < (pick_hands_loop c rest (r + get_hand_combos h)).length := by
            simpa using hk
          have := ih (r + get_hand_combos h) k hk'
          push_cast at this ⊢
          simpa [sumCombos_cons, add_assoc] using this
      · simp [pick_hands_loop, if_neg hz, if_neg hlt] at hk

/-- When the loop stops (or exhausts the list), either the accumulated combo
count has reached the target, or everything with nonzero combos was taken. -/
lemma pick_hands_loop_total (c : ℚ) :
    ∀ (l : List Str) (r : ℕ),
      c ≤ (r : ℚ) + (sumCombos (pick_hands_loop c l r) : ℚ) ∨
      pick_hands_loop c l r = l.filter (fun h => get_hand_combos h ≠ 0) := by
  intro l
  induction l with
  | nil => intro r; right; simp [pick_hands_loop]
  | cons h rest ih =>
    intro r
    by_cases hz : get_hand_combos h = 0
    · rcases ih r with hle | heq
      · left; simpa [pick_hands_loop, hz] using hle
      · right; simp [pick_hands_loop, hz, heq]
    · by_cases hlt : (r : ℚ) < c
      · rcases ih (r + get_hand_combos h) with hle | heq
        · left
          simp only [pick_hands_loop, if_neg hz, if_pos hlt]
          push_cast at hle ⊢
          simpa [sumCombos_cons, add_assoc] using hle
        · right
          simp only [pick_hands_loop, if_neg hz, if_pos hlt, heq, List.filter_cons]
          simp [hz]
      · left
        simp only [pick_hands_loop, if_neg hz, if_neg hlt]
        have : c ≤ (r : ℚ) := le_of_not_lt hlt
        simpa [sumCombos] using this

/-- Raising the target extends the selection: the selection at a smaller
target is a prefix of the one at a larger target. -/
lemma pick_hands_loop_mono (c₁ c₂ : ℚ) (hc : c₁ ≤ c₂) :
    ∀ (l : List Str) (r : ℕ),
      ∃ t, pick_hands_loop c₁ l r ++ t = pick_hands_loop c₂ l r := by
  intro l
  induction l with
  | nil => intro r; exact ⟨[], rfl⟩
  | cons h rest ih =>
    intro r
    by_cases hz : get_hand_combos h = 0
    · simpa [pick_hands_loop, hz] using ih r
    · by_cases hlt : (r : ℚ) < c₁
      · have hlt₂ : (r : ℚ) < c₂ := lt_of_lt_of_le hlt hc
        obtain ⟨t, ht⟩ := ih (r + get_hand_combos h)
        exact ⟨t, by simp [pick_hands_loop, if_neg hz, if_pos hlt, if_pos hlt₂, ht]⟩
      · exact ⟨pick_hands_loop c₂ (h :: rest) r, by
          simp [pick_hands_loop, if_neg hz, if_neg hlt]⟩

lemma calculate_range_percentage_nonneg (l : List Str) :
    0 ≤ calculate_range_percentage l := by
  unfold calculate_range_percentage
  split
  · exact le_refl 0
  · positivity

/-- A prefix of a range covers at most the percentage of the whole range. -/
lemma calculate_range_percentage_mono_of_append (a t : List Str) :
    calculate_range_percentage a ≤ calculate_range_percentage (a ++ t) := by
  rcases eq_or_ne a [] with rfl | ha
  · simpa using calculate_range_percentage_nonneg t
  · have hat : a ++ t ≠ [] := by simp [ha]
    unfold calculate_range_percentage
    rw [if_neg ha, if_neg hat]
    have hsum : (a.map get_hand_combos).sum ≤ ((a ++ t).map get_hand_combos).sum := by
      simp only [List.map_append, List.sum_append]
      exact Nat.le_add_right _ _
    have hq : ((a.map get_hand_combos).sum : ℚ) ≤ (((a ++ t).map get_hand_combos).sum : ℚ) := by
      exact_mod_cast hsum
    have hC : (0:ℚ) < (TOTAL_COMBOS : ℚ) := by norm_num [TOTAL_COMBOS]
    exact mul_le_mul_of_nonneg_right ((div_le_div_iff_of_pos_right hC).2 hq) (by norm_num)

/-- The selection at percentage `p` is a prefix of the selection at `q ≥ p`. -/
lemma top_hands_mono_aux (p q : ℚ) (hpq : p ≤ q) :
    ∃ t, get_top_hands_by_percentage p ++ t = get_top_hands_by_percentage q := by
  unfold get_top_hands_by_percentage
  by_cases hp0 : p ≤ 0
  · simp only [if_pos hp0]
    exact ⟨_, rfl⟩
  · have hq0 : ¬ q ≤ 0 := fun h => hp0 (hpq.trans h)
    by_cases hq100 : 100 ≤ q
    · by_cases hp100 : 100 ≤ p
      · simp only [if_neg hp0, if_neg hq0, if_pos hp100, if_pos hq100]
        exact ⟨[], by simp⟩
      · simp only [if_neg hp0, if_neg hq0, if_neg hp100, if_pos hq100]
        exact pick_hands_loop_append _ SIMPLIFIED_HAND_RANKING 0 ranking_combos_pos
    · have hp100 : ¬ 100 ≤ p := fun h => hq100 (h.trans hpq)
      simp only [if_neg hp0, if_neg hq0, if_neg hp100, if_neg hq100]
      have hcc : (TOTAL_COMBOS : ℚ) * (p / 100) ≤ (TOTAL_COMBOS : ℚ) * (q / 100) := by
        have : p / 100 ≤ q / 100 := by linarith
        nlinarith [this]
      exact pick_hands_loop_mono _ _ hcc SIMPLIFIED_HAND_RANKING 0

/-- Claim C2: `get_top_hands_by_percentage` walks the fixed ranking from the
strongest hand, accumulating per-class combo counts, stopping as soon as the
accumulated combos reach or exceed `target = 1326 * p/100` with the crossing
class included in full; `p ≤ 0` yields `[]` and `p ≥ 100` yields the full
169-class ranking. -/
theorem C2_top_hands_by_percentage (p : ℚ) :
    (p ≤ 0 → get_top_hands_by_percentage p = []) ∧
    (100 ≤ p → get_top_hands_by_percentage p = SIMPLIFIED_HAND_RANKING) ∧
    (0 < p → p < 100 →
      (∃ t, get_top_hands_by_percentage p ++ t = SIMPLIFIED_HAND_RANKING) ∧
      (∀ k, k < (get_top_hands_by_percentage p).length →
        ((sumCombos ((get_top_hands_by_percentage p).take k) : ℚ) <
          (TOTAL_COMBOS : ℚ) * (p / 100))) ∧
      ((TOTAL_COMBOS : ℚ) * (p / 100) ≤ (sumCombos (get_top_hands_by_percentage p) : ℚ) ∨
        get_top_hands_by_percentage p = SIMPLIFIED_HAND_RANKING)) := by
  refine ⟨fun hp => by simp [get_top_hands_by_percentage, hp], fun hp => ?_, fun hp0 hp100 => ?_⟩
  · have : ¬ p ≤ 0 := by linarith
    simp [get_top_hands_by_percentage, this, hp]
  · have h0 : ¬ p ≤ 0 := by linarith
    have h100 : ¬ 100 ≤ p := by linarith
    have hdef : get_top_hands_by_percentage p =
        pick_hands_loop ((TOTAL_COMBOS : ℚ) * (p / 100)) SIMPLIFIED_HAND_RANKING 0 := by
      simp [get_top_hands_by_percentage, h0, h100]
    refine ⟨?_, ?_, ?_⟩
    · rw [hdef]
      exact pick_hands_loop_append _ SIMPLIFIED_HAND_RANKING 0 ranking_combos_pos
    · intro k hk
      rw [hdef] at hk ⊢
      have := pick_hands_loop_partial_sums ((TOTAL_COMBOS : ℚ) * (p / 100))
        SIMPLIFIED_HAND_RANKING 0 k hk
      simpa using this
    · rw [hdef]
      rcases pick_hands_loop_total ((TOTAL_COMBOS : ℚ) * (p / 100))
        SIMPLIFIED_HAND_RANKING 0 with hle | heq
      · left; simpa using hle
      · right
        rw [heq]
        have : SIMPLIFIED_HAND_RANKING.filter (fun h => get_hand_combos h ≠ 0) =
            SIMPLIFIED_HAND_RANKING := by
          apply List.filter_eq_self.2
          intro a ha
          simpa using ranking_combos_pos a ha
        exact this

/-- Witness for C2 at concrete percentages `-1`, `100` and `50`. -/
theorem C2_witness :
    get_top_hands_by_percentage (-1) = [] ∧
    get_top_hands_by_percentage 100 = SIMPLIFIED_HAND_RANKING ∧
    ((TOTAL_COMBOS : ℚ) * ((50:ℚ) / 100) ≤ (sumCombos (get_top_hands_by_percentage 50) : ℚ) ∨
      get_top_hands_by_percentage 50 = SIMPLIFIED_HAND_RANKING) :=
  ⟨(C2_top_hands_by_percentage (-1)).1 (by norm_num),
   (C2_top_hands_by_percentage 100).2.1 (by norm_num),
   ((C2_top_hands_by_percentage 50).2.2 (by norm_num) (by norm_num)).2.2⟩

/-- Claim C8: the percentage covered by `get_top_hands_by_percentage p` is
monotonically non-decreasing in `p`, and `get_top_hands_by_percentage 100`
returns all 169 classes. -/
theorem C8_range_percentage_monotone :
    (∀ p q : ℚ, p ≤ q →
      calculate_range_percentage (get_top_hands_by_percentage p) ≤
        calculate_range_percentage (get_top_hands_by_percentage q)) ∧
    get_top_hands_by_percentage 100 = SIMPLIFIED_HAND_RANKING ∧
    SIMPLIFIED_HAND_RANKING.length = 169 := by
  refine ⟨fun p q hpq => ?_, (C2_top_hands_by_percentage 100).2.1 (by norm_num), ranking_length⟩
  obtain ⟨t, ht⟩ := top_hands_mono_aux p q hpq
  calc calculate_range_percentage (get_top_hands_by_percentage p)
      ≤ calculate_range_percentage (get_top_hands_by_percentage p ++ t) :=
        calculate_range_percentage_mono_of_append _ _
    _ = calculate_range_percentage (get_top_hands_by_percentage q) := by rw [ht]

/-- Witness for C8 at the concrete pair `10 ≤ 20`. -/
theorem C8_witness :
    calculate_range_percentage (get_top_hands_by_percentage 10) ≤
      calculate_range_percentage (get_top_hands_by_percentage 20) :=
  C8_range_percentage_monotone.1 10 20 (by norm_num)

/-! ### Range notation codec (the unnamed app file) -/

/-- Python `s.split(sep)` for a one-character separator: keeps empty pieces,
always returns at least one piece. -/
def splitOnChar (sep : Char) : Str → List Str
  | [] => [[]]
  | c :: rest =>
    match splitOnChar sep rest with
    | [] => []
    | h :: t => if c = sep then [] :: h :: t else (c :: h) :: t

/-- Python `s.split(sep, 1)`: the pieces before and after the first
occurrence of `sep`.  Only used under an `sep in s` guard, as in the source. -/
def splitOnceChar (sep : Char) : Str → Str × Str
  | [] => ([], [])
  | c :: rest =>
    if c = sep then ([], rest)
    else
      let r := splitOnceChar sep rest
      (c :: r.1, r.2)

/-- Python `s.strip()`: drop leading and trailing whitespace. -/
def stripStr (s : Str) : Str :=
  ((s.dropWhile Char.isWhitespace).reverse.dropWhile Char.isWhitespace).reverse

/-- `_normalize_card_notation` from the app file: strip, then upper-case the
rank letters, preserving a trailing `s`/`o` as lowercase. -/
def normalize_card (raw_card_str : Str) : Str :=
  let raw := stripStr raw_card_str
  if 3 ≤ raw.length ∧ (raw.getLastD ' ').toLower ∈ (['s', 'o'] : List Char) then
    (raw.dropLast.map Char.toUpper) ++ [(raw.getLastD ' ').toLower]
  else raw.map Char.toUpper

/-- `_is_pair_str` from the app file. -/
def is_pair_str : Str → Bool
  | [a, b] => a == b
  | _ => false

/-- `_is_suited_offsuit_str` from the app file. -/
def is_suited_offsuit_str : Str → Bool
  | [_, _, t] => t == 's' || t == 'o'
  | _ => false

/-- The repeated `if candidate in all_hands_list: hands_set.add(candidate)`
pattern of the parser helpers, folded over a list of rank indices. -/
def addCandidates (cand : ℕ → Str) (all_hands_list : List Str) :
    List ℕ → Finset Str → Finset Str
  | [], hands_set => hands_set
  | i :: rest, hands_set =>
    addCandidates cand all_hands_list rest
      (if cand i ∈ all_hands_list then insert (cand i) hands_set else hands_set)

/-- `parse_dashed_pairs_range` from the app file: expand `"99-22"` style
ranges (endpoint order irrelevant); a rank character not in `RANKS` raises
`ValueError` in Python, caught by the helper's `except`, adding nothing. -/
def parse_dashed_pairs_range (hands_set : Finset Str) (start_pair end_pair : Str)
    (all_hands_list : List Str) : Finset Str :=
  if start_pair.getD 0 ' ' ∈ RANKS ∧ end_pair.getD 0 ' ' ∈ RANKS then
    let start_idx := rankIdx (start_pair.getD 0 ' ')
    let end_idx := rankIdx (end_pair.getD 0 ' ')
    let lo := min start_idx end_idx
    let hi := max start_idx end_idx
    addCandidates (fun i => [RANKS.getD i 'A', RANKS.getD i 'A']) all_hands_list
      (List.range' lo (hi + 1 - lo)) hands_set
  else hands_set

/-- `parse_dashed_combo_range` from the app file: expand `"A2s-AKs"` style
ranges; endpoints must share the primary rank and the `s`/`o` tag, otherwise
the function returns with the set unchanged. -/
def parse_dashed_combo_range (hands_set : Finset Str) (start_str end_str : Str)
    (all_hands_list : List Str) : Finset Str :=
  match start_str, end_str with
  | [sr1, sr2, stype], [er1, er2, etype] =>
    if sr1 ≠ er1 ∨ stype ≠ etype then hands_set
    else if sr2 ∈ RANKS ∧ er2 ∈ RANKS then
      let lo := min (rankIdx sr2) (rankIdx er2)
      let hi := max (rankIdx sr2) (rankIdx er2)
      addCandidates (fun i => [sr1, RANKS.getD i 'A', stype]) all_hands_list
        (List.range' lo (hi + 1 - lo)) hands_set
    else hands_set
  | _, _ => hands_set

/-- `parse_pairs_plus` from the app file: `"TT+"` adds TT up to AA (the
source iterates the rank indices downward; insertion order is irrelevant for
the resulting set). -/
def parse_pairs_plus (hands_set : Finset Str) (pair_str : Str)
    (all_hands_list : List Str) : Finset Str :=
  if pair_str.getD 0 ' ' ∈ RANKS then
    let base_idx := rankIdx (pair_str.getD 0 ' ')
    addCandidates (fun i => [RANKS.getD i 'A', RANKS.getD i 'A']) all_hands_list
      (List.range (base_idx + 1)) hands_set
  else hands_set

/-- `parse_suited_offsuit_plus` from the app file: `"A9s+"` adds A9s down to
A2s (secondary rank from the given one to the weakest rank `'2'`). -/
def parse_suited_offsuit_plus (hands_set : Finset Str) (base_str : Str)
    (all_hands_list : List Str) : Finset Str :=
  match base_str with
  | [rank1, rank2, ctype] =>
    if rank2 ∈ RANKS then
      let idx_start := rankIdx rank2
      addCandidates (fun i => [rank1, RANKS.getD i 'A', ctype]) all_hands_list
        (List.range' idx_start (RANKS.length - idx_start)) hands_set
    else hands_set
  | _ => hands_set

/-- One iteration of the `for raw_part in parts` loop of `parse_range_text`:
normalize the token, then try, in order, direct match, two-letter hand,
two-letter pair, dashed range, plus notation; unrecognized tokens add
nothing. -/
def parse_range_token (all_hands_list : List Str) (hands : Finset Str)
    (raw_part : Str) : Finset Str :=
  let part := normalize_card raw_part
  if part ∈ all_hands_list then insert part hands
  else if part.length = 2 ∧ part.getD 0 ' ' ≠ part.getD 1 ' ' then
    let suited := part ++ ['s']
    let offsuit := part ++ ['o']
    let hands1 := if suited ∈ all_hands_list then insert suited hands else hands
    if offsuit ∈ all_hands_list then insert offsuit hands1 else hands1
  else if part.length = 2 ∧ part.getD 0 ' ' = part.getD 1 ' ' then
    if part ∈ all_hands_list then insert part hands else hands
  else if '-' ∈ part then
    let se := splitOnceChar '-' part
    let start_str := normalize_card se.1
    let end_str := normalize_card se.2
    if is_pair_str start_str ∧ is_pair_str end_str then
      parse_dashed_pairs_range hands start_str end_str all_hands_list
    else if is_suited_offsuit_str start_str ∧ is_suited_offsuit_str end_str then
      parse_dashed_combo_range hands start_str end_str all_hands_list
    else hands
  else if part.getLastD ' ' = '+' then
    let base := normalize_card part.dropLast
    if is_pair_str base then parse_pairs_plus hands base all_hands_list
    else if is_suited_offsuit_str base then parse_suited_offsuit_plus hands base all_hands_list
    else hands
  else hands

/-- `parse_range_text` from the app file: split on commas, strip, drop empty
tokens, then process each token into the accumulating set of hands. -/
def parse_range_text (range_text : Str) : Finset Str :=
  let all_hands_list := get_all_hands
  let parts := ((splitOnChar ',' range_text).map stripStr).filter (· ≠ [])
  parts.foldl (parse_range_token all_hands_list) ∅

/-! ### Facts about `RANKS` and `get_all_hands` -/

lemma mem_addCandidates (cand : ℕ → Str) (all : List Str) :
    ∀ (idxs : List ℕ) (init : Finset Str) (x : Str),
      x ∈ addCandidates cand all idxs init ↔
        x ∈ init ∨ ∃ i ∈ idxs, cand i ∈ all ∧ x = cand i := by
  intro idxs
  induction idxs with
  | nil => intro init x; simp [addCandidates]
  | cons i rest ih =>
    intro init x
    simp only [addCandidates]
    rw [ih]
    by_cases hi : cand i ∈ all
    · simp only [if_pos hi, Finset.mem_insert, List.mem_cons]
      constructor
      · rintro ((rfl | hmem) | ⟨j, hj, hja, rfl⟩)
        · exact Or.inr ⟨i, Or.inl rfl, hi, rfl⟩
        · exact Or.inl hmem
        · exact Or.inr ⟨j, Or.inr hj, hja, rfl⟩
      · rintro (hmem | ⟨j, (rfl | hj), hja, rfl⟩)
        · exact Or.inl (Or.inr hmem)
        · exact Or.inl (Or.inl rfl)
        · exact Or.inr ⟨j, hj, hja, rfl⟩
    · simp only [if_neg hi, List.mem_cons]
      constructor
      · rintro (hmem | ⟨j, hj, hja, rfl⟩)
        · exact Or.inl hmem
        · exact Or.inr ⟨j, Or.inr hj, hja, rfl⟩
      · rintro (hmem | ⟨j, (rfl | hj), hja, rfl⟩)
        · exact Or.inl hmem
        · exact absurd hja hi
        · exact Or.inr ⟨j, hj, hja, rfl⟩

lemma ranks_length : RANKS.length = 13 := rfl

lemma rankIdx_lt_of_mem : ∀ c ∈ RANKS, rankIdx c < 13 := by decide

lemma ranks_getD_rankIdx : ∀ c ∈ RANKS, RANKS.getD (rankIdx c) 'A' = c := by decide

lemma rankIdx_getD : ∀ i < 13, rankIdx (RANKS.getD i 'A') = i := by decide

lemma getD_mem_ranks : ∀ i < 13, RANKS.getD i 'A' ∈ RANKS := by decide

/-- Membership in `get_all_hands`, characterized by rank indices. -/
lemma mem_get_all_hands_iff (h : Str) :
    h ∈ get_all_hands ↔
      ((∃ i, i < 13 ∧ h = [RANKS.getD i 'A', RANKS.getD i 'A']) ∨
       (∃ i j, i < j ∧ j < 13 ∧
         (h = [RANKS.getD i 'A', RANKS.getD j 'A', 's'] ∨
          h = [RANKS.getD i 'A', RANKS.getD j 'A', 'o']))) := by
  unfold get_all_hands
  rw [ranks_length]
  simp only [List.mem_flatMap, List.mem_range, List.mem_range'_1]
  constructor
  · rintro ⟨i, hi, j, ⟨hij, hj⟩, hmem⟩
    by_cases hij' : i = j
    · subst hij'
      rw [if_pos rfl, List.mem_singleton] at hmem
      exact Or.inl ⟨i, hi, hmem⟩
    · rw [if_neg hij'] at hmem
      simp only [List.mem_cons, List.mem_singleton, List.not_mem_nil, or_false] at hmem
      exact Or.inr ⟨i, j, lt_of_le_of_ne hij hij', by omega, hmem⟩
  · rintro (⟨i, hi, rfl⟩ | ⟨i, j, hij, hj, hcase⟩)
    · exact ⟨i, hi, i, ⟨le_refl i, by omega⟩, by simp⟩
    · refine ⟨i, by omega, j, ⟨le_of_lt hij, by omega⟩, ?_⟩
      rw [if_neg (Nat.ne_of_lt hij)]
      rcases hcase with rfl | rfl <;> simp

lemma pair_mem_get_all_hands {c : Char} (hc : c ∈ RANKS) : [c, c] ∈ get_all_hands := by
  rw [mem_get_all_hands_iff]
  exact Or.inl ⟨rankIdx c, rankIdx_lt_of_mem c hc, by rw [ranks_getD_rankIdx c hc]⟩

lemma so_mem_get_all_hands_iff {a b k : Char} (ha : a ∈ RANKS) (hb : b ∈ RANKS)
    (hk : k = 's' ∨ k = 'o') :
    [a, b, k] ∈ get_all_hands ↔ rankIdx a < rankIdx b := by
  rw [mem_get_all_hands_iff]
  constructor
  · rintro (⟨i, hi, heq⟩ | ⟨i, j, hij, hj, heq | heq⟩)
    · exact absurd heq (by simp)
    all_goals
      simp only [List.cons.injEq, and_true] at heq
      obtain ⟨rfl, rfl, -⟩ := heq
      rw [rankIdx_getD i (by omega), rankIdx_getD j hj]
      exact hij
  · intro hab
    have ha' := rankIdx_lt_of_mem a ha
    have hb' := rankIdx_lt_of_mem b hb
    refine Or.inr ⟨rankIdx a, rankIdx b, hab, hb', ?_⟩
    rw [ranks_getD_rankIdx a ha, ranks_getD_rankIdx b hb]
    rcases hk with rfl | rfl
    · exact Or.inl rfl
    · exact Or.inr rfl

/-- Every canonical hand string has length 2 or 3. -/
lemma length_of_mem_get_all_hands {h : Str} (hm : h ∈ get_all_hands) :
    h.length = 2 ∨ h.length = 3 := by
  rw [mem_get_all_hands_iff] at hm
  rcases hm with ⟨i, _, rfl⟩ | ⟨i, j, _, _, rfl | rfl⟩ <;> simp

/-! ### Claim C10: parser safety -/

lemma insert_subset_helper {all : List Str} {s : Finset Str} {a x : Str}
    (ha : a ∈ all) (hx : x ∈ insert a s) : x ∈ s ∨ x ∈ all := by
  rcases Finset.mem_insert.1 hx with rfl | h
  · exact Or.inr ha
  · exact Or.inl h

lemma parse_dashed_pairs_range_subset (hands : Finset Str) (s e : Str) (all : List Str) :
    ∀ x ∈ parse_dashed_pairs_range hands s e all, x ∈ hands ∨ x ∈ all := by
  intro x hx
  unfold parse_dashed_pairs_range at hx
  split_ifs at hx
  · rcases (mem_addCandidates _ _ _ _ _).1 hx with hmem | ⟨i, _, hin, rfl⟩
    · exact Or.inl hmem
    · exact Or.inr hin
  · exact Or.inl hx

lemma parse_dashed_combo_range_subset (hands : Finset Str) (s e : Str) (all : List Str) :
    ∀ x ∈ parse_dashed_combo_range hands s e all, x ∈ hands ∨ x ∈ all := by
  intro x hx
  rcases s with _ | ⟨s1, _ | ⟨s2, _ | ⟨s3, _ | ⟨s4, st⟩⟩⟩⟩ <;>
    rcases e with _ | ⟨e1, _ | ⟨e2, _ | ⟨e3, _ | ⟨e4, et⟩⟩⟩⟩ <;>
    simp only [parse_dashed_combo_range] at hx <;>
    try exact Or.inl hx
  split_ifs at hx
  · exact Or.inl hx
  · rcases (mem_addCandidates _ _ _ _ _).1 hx with hmem | ⟨i, _, hin, rfl⟩
    · exact Or.inl hmem
    · exact Or.inr hin
  · exact Or.inl hx

lemma parse_pairs_plus_subset (hands : Finset Str) (s : Str) (all : List Str) :
    ∀ x ∈ parse_pairs_plus hands s all, x ∈ hands ∨ x ∈ all := by
  intro x hx
  unfold parse_pairs_plus at hx
  split_ifs at hx
  · rcases (mem_addCandidates _ _ _ _ _).1 hx with hmem | ⟨i, _, hin, rfl⟩
    · exact Or.inl hmem
    · exact Or.inr hin
  · exact Or.inl hx

lemma parse_suited_offsuit_plus_subset (hands : Finset Str) (s : Str) (all : List Str) :
    ∀ x ∈ parse_suited_offsuit_plus hands s all, x ∈ hands ∨ x ∈ all := by
  intro x hx
  rcases s with _ | ⟨s1, _ | ⟨s2, _ | ⟨s3, _ | ⟨s4, st⟩⟩⟩⟩ <;>
    simp only [parse_suited_offsuit_plus] at hx <;>
    try exact Or.inl hx
  split_ifs at hx
  · rcases (mem_addCandidates _ _ _ _ _).1 hx with hmem | ⟨i, _, hin, rfl⟩
    · exact Or.inl hmem
    · exact Or.inr hin
  · exact Or.inl hx

/-- Every hand added by one token of the parser is a canonical hand. -/
lemma parse_range_token_subset (all : List Str) (hands : Finset Str) (raw : Str) :
    ∀ x ∈ parse_range_token all hands raw, x ∈ hands ∨ x ∈ all := by
  intro x hx
  unfold parse_range_token at hx
  simp only [] at hx
  split_ifs at hx with h1 h2 h3 h4 h5 h6 h7 h8 h9 h10 h11 h12
  · exact insert_subset_helper h1 hx
  · rcases insert_subset_helper h3 hx with hx2 | hall
    · exact insert_subset_helper h4 hx2
    · exact Or.inr hall
  · exact insert_subset_helper h3 hx
  · exact insert_subset_helper h5 hx
  · exact Or.inl hx
  · exact Or.inl hx
  · exact parse_dashed_pairs_range_subset _ _ _ _ x hx
  · exact parse_dashed_combo_range_subset _ _ _ _ x hx
  · exact Or.inl hx
  · exact parse_pairs_plus_subset _ _ _ x hx
  · exact parse_suited_offsuit_plus_subset _ _ _ x hx
  · exact Or.inl hx
  · exact Or.inl hx

lemma parse_fold_subset (all : List Str) :
    ∀ (parts : List Str) (acc : Finset Str), (∀ y ∈ acc, y ∈ all) →
      ∀ x ∈ parts.foldl (parse_range_token all) acc, x ∈ all := by
  intro parts
  induction parts with
  | nil => intro acc hacc x hx; exact hacc x hx
  | cons p rest ih =>
    intro acc hacc x hx
    refine ih (parse_range_token all acc p) ?_ x hx
    intro y hy
    rcases parse_range_token_subset all acc p y hy with hmem | hall
    · exact hacc y hmem
    · exact hall

/-- Claim C10: on every input string, `parse_range_text` terminates (it is a
total function of this embedding) and returns a set all of whose members are
among the 169 canonical hand strings of `get_all_hands`; nothing else is ever
added. -/
theorem C10_parse_range_text_safe :
    get_all_hands.length = 169 ∧
    ∀ (text : Str), ∀ x ∈ parse_range_text text, x ∈ get_all_hands := by
  refine ⟨by decide, fun text x hx => ?_⟩
  unfold parse_range_text at hx
  exact parse_fold_subset get_all_hands _ ∅ (by simp) x hx

/-- Witness for C10: the token list `"ak, 77-55, zz+"` parses and its member
`"77"` is canonical. -/
theorem C10_witness :
    strOf "77" ∈ parse_range_text (strOf "ak, 77-55, zz+") ∧
    strOf "77" ∈ get_all_hands :=
  ⟨by decide, C10_parse_range_text_safe.2 (strOf "ak, 77-55, zz+") (strOf "77") (by decide)⟩

/-! ### Character-level facts used by the codec proofs -/

lemma ranks_not_whitespace : ∀ c ∈ RANKS, c.isWhitespace = false := by decide

lemma ranks_toUpper : ∀ c ∈ RANKS, c.toUpper = c := by decide

lemma ranks_ne_dash : ∀ c ∈ RANKS, c ≠ '-' := by decide

lemma ranks_ne_comma : ∀ c ∈ RANKS, c ≠ ',' := by decide

lemma ranks_toLower_not_so : ∀ c ∈ RANKS, ¬(c.toLower = 's' ∨ c.toLower = 'o') := by decide

lemma dropWhile_eq_self_of_all {p : Char → Bool} :
    ∀ {s : Str}, (∀ c ∈ s, p c = false) → s.dropWhile p = s
  | [], _ => rfl
  | c :: t, h => by
    have hc := h c (by simp)
    simp [List.dropWhile, hc]

lemma stripStr_eq_self {s : Str} (h : ∀ c ∈ s, c.isWhitespace = false) : stripStr s = s := by
  unfold stripStr
  rw [dropWhile_eq_self_of_all h,
    dropWhile_eq_self_of_all (fun c hc => h c (List.mem_reverse.1 hc)),
    List.reverse_reverse]

lemma splitOnChar_eq_single {sep : Char} :
    ∀ {s : Str}, (∀ c ∈ s, c ≠ sep) → splitOnChar sep s = [s]
  | [], _ => rfl
  | c :: t, h => by
    have ht := @splitOnChar_eq_single sep t (fun d hd => h d (by simp [hd]))
    simp [splitOnChar, ht, h c (by simp)]

/-- Parsing a single comma-free, whitespace-free, nonempty token is one pass
of the token loop starting from the empty set. -/
lemma parse_range_text_single {tok : Str} (hne : tok ≠ [])
    (hc : ∀ c ∈ tok, c ≠ ',') (hw : ∀ c ∈ tok, c.isWhitespace = false) :
    parse_range_text tok = parse_range_token get_all_hands ∅ tok := by
  unfold parse_range_text
  rw [splitOnChar_eq_single hc]
  simp [stripStr_eq_self hw, hne]

/-! ### `normalize_card` on the token shapes the codec emits -/

lemma normalize_card_rank_pair {a b : Char} (ha : a ∈ RANKS) (hb : b ∈ RANKS) :
    normalize_card [a, b] = [a, b] := by
  unfold normalize_card
  rw [stripStr_eq_self (by
    intro c hc
    rcases List.mem_pair.1 hc with rfl | rfl
    · exact ranks_not_whitespace c ha
    · exact ranks_not_whitespace c hb)]
  rw [if_neg (by norm_num)]
  simp [ranks_toUpper a ha, ranks_toUpper b hb]

lemma so_char_toLower {k : Char} (hk : k = 's' ∨ k = 'o') : k.toLower = k := by
  rcases hk with rfl | rfl <;> decide

lemma so_char_not_whitespace {k : Char} (hk : k = 's' ∨ k = 'o') :
    k.isWhitespace = false := by
  rcases hk with rfl | rfl <;> decide

lemma so_upper_toLower {k : Char} (hk : k = 's' ∨ k = 'o') : k.toUpper.toLower = k := by
  rcases hk with rfl | rfl <;> decide

lemma normalize_card_so {a b k : Char} (ha : a ∈ RANKS) (hb : b ∈ RANKS)
    (hk : k = 's' ∨ k = 'o') : normalize_card [a, b, k] = [a, b, k] := by
  unfold normalize_card
  rw [stripStr_eq_self (by
    intro c hc
    simp only [List.mem_cons, List.not_mem_nil, or_false] at hc
    rcases hc with rfl | rfl | rfl
    · exact ranks_not_whitespace c ha
    · exact ranks_not_whitespace c hb
    · exact so_char_not_whitespace hk)]
  rw [if_pos (by
    refine ⟨by norm_num, ?_⟩
    show ([a, b, k].getLastD ' ').toLower ∈ (['s', 'o'] : List Char)
    simp [List.getLastD, so_char_toLower hk]
    rcases hk with rfl | rfl <;> simp)]
  simp [List.dropLast, List.getLastD, ranks_toUpper a ha, ranks_toUpper b hb,
    so_char_toLower hk]

lemma normalize_card_so_upper {a b k : Char} (ha : a ∈ RANKS) (hb : b ∈ RANKS)
    (hk : k = 's' ∨ k = 'o') : normalize_card [a, b, k.toUpper] = [a, b, k] := by
  unfold normalize_card
  rw [stripStr_eq_self (by
    intro c hc
    simp only [List.mem_cons, List.not_mem_nil, or_false] at hc
    rcases hc with rfl | rfl | rfl
    · exact ranks_not_whitespace c ha
    · exact ranks_not_whitespace c hb
    · rcases hk with rfl | rfl <;> decide)]
  rw [if_pos (by
    refine ⟨by norm_num, ?_⟩
    show ([a, b, k.toUpper].getLastD ' ').toLower ∈ (['s', 'o'] : List Char)
    simp [List.getLastD, so_upper_toLower hk]
    rcases hk with rfl | rfl <;> simp)]
  simp [List.dropLast, List.getLastD, ranks_toUpper a ha, ranks_toUpper b hb,
    so_upper_toLower hk]

lemma normalize_card_dashed_pairs {a b : Char} (ha : a ∈ RANKS) (hb : b ∈ RANKS) :
    normalize_card [a, a, '-', b, b] = [a, a, '-', b, b] := by
  unfold normalize_card
  rw [stripStr_eq_self (by
    intro c hc
    simp only [List.mem_cons, List.not_mem_nil, or_false] at hc
    rcases hc with rfl | rfl | rfl | rfl | rfl
    · exact ranks_not_whitespace c ha
    · exact ranks_not_whitespace c ha
    · decide
    · exact ranks_not_whitespace c hb
    · exact ranks_not_whitespace c hb)]
  rw [if_neg (by
    intro hcond
    exact ranks_toLower_not_so b hb (by simpa [List.getLastD] using hcond.2))]
  simp [ranks_toUpper a ha, ranks_toUpper b hb]

lemma normalize_card_dashed_so {r1 r2 r3 r4 k k' : Char}
    (h1 : r1 ∈ RANKS) (h2 : r2 ∈ RANKS) (h3 : r3 ∈ RANKS) (h4 : r4 ∈ RANKS)
    (hk : k = 's' ∨ k = 'o') (hk' : k' = 's' ∨ k' = 'o') :
    normalize_card [r1, r2, k, '-', r3, r4, k'] = [r1, r2, k.toUpper, '-', r3, r4, k'] := by
  unfold normalize_card
  rw [stripStr_eq_self (by
    intro c hc
    simp only [List.mem_cons, List.not_mem_nil, or_false] at hc
    rcases hc with rfl | rfl | rfl | rfl | rfl | rfl | rfl
    · exact ranks_not_whitespace c h1
    · exact ranks_not_whitespace c h2
    · exact so_char_not_whitespace hk
    · decide
    · exact ranks_not_whitespace c h3
    · exact ranks_not_whitespace c h4
    · exact so_char_not_whitespace hk')]
  rw [if_pos (by
    refine ⟨by norm_num, ?_⟩
    show ([r1, r2, k, '-', r3, r4, k'].getLastD ' ').toLower ∈ (['s', 'o'] : List Char)
    simp [List.getLastD, so_char_toLower hk']
    rcases hk' with rfl | rfl <;> simp)]
  simp [List.dropLast, List.getLastD, ranks_toUpper r1 h1, ranks_toUpper r2 h2,
    ranks_toUpper r3 h3, ranks_toUpper r4 h4, so_char_toLower hk']

lemma normalize_card_pair_plus {a : Char} (ha : a ∈ RANKS) :
    normalize_card [a, a, '+'] = [a, a, '+'] := by
  unfold normalize_card
  rw [stripStr_eq_self (by
    intro c hc
    simp only [List.mem_cons, List.not_mem_nil, or_false] at hc
    rcases hc with rfl | rfl | rfl
    · exact ranks_not_whitespace c ha
    · exact ranks_not_whitespace c ha
    · decide)]
  rw [if_neg (by
    intro hcond
    have := hcond.2
    simp [List.getLastD] at this)]
  simp [ranks_toUpper a ha]

lemma normalize_card_so_plus {a b k : Char} (ha : a ∈ RANKS) (hb : b ∈ RANKS)
    (hk : k = 's' ∨ k = 'o') :
    normalize_card [a, b, k, '+'] = [a, b, k.toUpper, '+'] := by
  unfold normalize_card
  rw [stripStr_eq_self (by
    intro c hc
    simp only [List.mem_cons, List.not_mem_nil, or_false] at hc
    rcases hc with rfl | rfl | rfl | rfl
    · exact ranks_not_whitespace c ha
    · exact ranks_not_whitespace c hb
    · exact so_char_not_whitespace hk
    · decide)]
  rw [if_neg (by
    intro hcond
    have := hcond.2
    simp [List.getLastD] at this)]
  simp [ranks_toUpper a ha, ranks_toUpper b hb]

/-! ### Dispatch of `parse_range_token` on each emitted token shape -/

lemma not_mem_all_of_length {h : Str} (hlen : h.length ≠ 2 ∧ h.length ≠ 3) :
    h ∉ get_all_hands := by
  intro hm
  rcases length_of_mem_get_all_hands hm with h2 | h3
  · exact hlen.1 h2
  · exact hlen.2 h3

/-- A length-3 string ending in `'+'` is not canonical. -/
lemma plus3_not_mem (a b : Char) : [a, b, '+'] ∉ get_all_hands := by
  intro hm
  rw [mem_get_all_hands_iff] at hm
  rcases hm with ⟨i, _, heq⟩ | ⟨i, j, _, _, heq | heq⟩ <;> simp at heq

/-- A dashed pair token dispatches to `parse_dashed_pairs_range`. -/
lemma parse_token_dashed_pairs (hands : Finset Str) {a b : Char}
    (ha : a ∈ RANKS) (hb : b ∈ RANKS) :
    parse_range_token get_all_hands hands [a, a, '-', b, b] =
      parse_dashed_pairs_range hands [a, a] [b, b] get_all_hands := by
  have hsplit : splitOnceChar '-' [a, a, '-', b, b] = ([a, a], [b, b]) := by
    simp [splitOnceChar, ranks_ne_dash a ha]
  unfold parse_range_token
  simp only []
  rw [normalize_card_dashed_pairs ha hb]
  rw [if_neg (not_mem_all_of_length (by simp))]
  rw [if_neg (by simp)]
  rw [if_neg (by simp)]
  rw [if_pos (by simp)]
  rw [hsplit]
  simp only [normalize_card_rank_pair ha ha, normalize_card_rank_pair hb hb]
  rw [if_pos (by simp [is_pair_str])]

/-- A dashed suited/offsuit token dispatches to `parse_dashed_combo_range`. -/
lemma parse_token_dashed_so (hands : Finset Str) {r1 r2 r3 r4 k k' : Char}
    (h1 : r1 ∈ RANKS) (h2 : r2 ∈ RANKS) (h3 : r3 ∈ RANKS) (h4 : r4 ∈ RANKS)
    (hk : k = 's' ∨ k = 'o') (hk' : k' = 's' ∨ k' = 'o') :
    parse_range_token get_all_hands hands [r1, r2, k, '-', r3, r4, k'] =
      parse_dashed_combo_range hands [r1, r2, k] [r3, r4, k'] get_all_hands := by
  have hkd : k.toUpper ≠ '-' := by rcases hk with rfl | rfl <;> decide
  have hsplit : splitOnceChar '-' [r1, r2, k.toUpper, '-', r3, r4, k'] =
      ([r1, r2, k.toUpper], [r3, r4, k']) := by
    simp [splitOnceChar, ranks_ne_dash r1 h1, ranks_ne_dash r2 h2, hkd]
  unfold parse_range_token
  simp only []
  rw [normalize_card_dashed_so h1 h2 h3 h4 hk hk']
  rw [if_neg (not_mem_all_of_length (by simp))]
  rw [if_neg (by simp)]
  rw [if_neg (by simp)]
  rw [if_pos (by simp)]
  rw [hsplit]
  simp only [normalize_card_so_upper h1 h2 hk, normalize_card_so h3 h4 hk']
  rw [if_neg (by simp [is_pair_str])]
  rw [if_pos (by rcases hk with rfl | rfl <;> rcases hk' with rfl | rfl <;>
        simp [is_suited_offsuit_str])]

/-- A pair-plus token dispatches to `parse_pairs_plus`. -/
lemma parse_token_pair_plus (hands : Finset Str) {a : Char} (ha : a ∈ RANKS) :
    parse_range_token get_all_hands hands [a, a, '+'] =
      parse_pairs_plus hands [a, a] get_all_hands := by
  unfold parse_range_token
  simp only []
  rw [normalize_card_pair_plus ha]
  rw [if_neg (plus3_not_mem a a)]
  rw [if_neg (by simp)]
  rw [if_neg (by simp)]
  rw [if_neg (by simp [(ranks_ne_dash a ha).symm])]
  rw [if_pos (by simp [List.getLastD])]
  have hdl : ([a, a, '+'] : Str).dropLast = [a, a] := rfl
  rw [hdl, normalize_card_rank_pair ha ha]
  rw [if_pos (by simp [is_pair_str])]

/-- A suited/offsuit-plus token dispatches to `parse_suited_offsuit_plus`. -/
lemma parse_token_so_plus (hands : Finset Str) {a b k : Char}
    (ha : a ∈ RANKS) (hb : b ∈ RANKS) (hk : k = 's' ∨ k = 'o') :
    parse_range_token get_all_hands hands [a, b, k, '+'] =
      parse_suited_offsuit_plus hands [a, b, k] get_all_hands := by
  have hkd : k.toUpper ≠ '-' := by rcases hk with rfl | rfl <;> decide
  unfold parse_range_token
  simp only []
  rw [normalize_card_so_plus ha hb hk]
  rw [if_neg (not_mem_all_of_length (by simp))]
  rw [if_neg (by simp)]
  rw [if_neg (by simp)]
  rw [if_neg (by simp [(ranks_ne_dash a ha).symm, (ranks_ne_dash b hb).symm, Ne.symm hkd])]
  rw [if_pos (by simp [List.getLastD])]
  have hdl : ([a, b, k.toUpper, '+'] : Str).dropLast = [a, b, k.toUpper] := rfl
  rw [hdl, normalize_card_so_upper ha hb hk]
  rw [if_neg (by simp [is_pair_str])]
  rw [if_pos (by rcases hk with rfl | rfl <;> simp [is_suited_offsuit_str])]

/-- An exact pair token is a direct match. -/
lemma parse_token_pair (hands : Finset Str) {a : Char} (ha : a ∈ RANKS) :
    parse_range_token get_all_hands hands [a, a] = insert [a, a] hands := by
  unfold parse_range_token
  simp only []
  rw [normalize_card_rank_pair ha ha]
  rw [if_pos (pair_mem_get_all_hands ha)]

/-- An exact canonical suited/offsuit token is a direct match. -/
lemma parse_token_so_mem (hands : Finset Str) {a b k : Char}
    (ha : a ∈ RANKS) (hb : b ∈ RANKS) (hk : k = 's' ∨ k = 'o')
    (hm : [a, b, k] ∈ get_all_hands) :
    parse_range_token get_all_hands hands [a, b, k] = insert [a, b, k] hands := by
  unfold parse_range_token
  simp only []
  rw [normalize_card_so ha hb hk]
  rw [if_pos hm]

/-! ### Membership characterizations of the parser helpers -/

lemma mem_parse_dashed_pairs_range (hands : Finset Str) {a b : Char}
    (ha : a ∈ RANKS) (hb : b ∈ RANKS) (x : Str) :
    x ∈ parse_dashed_pairs_range hands [a, a] [b, b] get_all_hands ↔
      x ∈ hands ∨ ∃ i, min (rankIdx a) (rankIdx b) ≤ i ∧
        i ≤ max (rankIdx a) (rankIdx b) ∧ x = [RANKS.getD i 'A', RANKS.getD i 'A'] := by
  have hma := rankIdx_lt_of_mem a ha
  have hmb := rankIdx_lt_of_mem b hb
  unfold parse_dashed_pairs_range
  rw [if_pos (⟨ha, hb⟩ : ([a, a] : Str).getD 0 ' ' ∈ RANKS ∧ ([b, b] : Str).getD 0 ' ' ∈ RANKS)]
  simp only [List.getD_cons_zero]
  rw [mem_addCandidates]
  constructor
  · rintro (h | ⟨i, hi, _, rfl⟩)
    · exact Or.inl h
    · rw [List.mem_range'_1] at hi
      exact Or.inr ⟨i, hi.1, by omega, rfl⟩
  · rintro (h | ⟨i, hle1, hle2, rfl⟩)
    · exact Or.inl h
    · refine Or.inr ⟨i, ?_, ?_, rfl⟩
      · rw [List.mem_range'_1]; omega
      · exact pair_mem_get_all_hands (getD_mem_ranks i (by omega))

lemma mem_parse_dashed_combo_range_same (hands : Finset Str) {r1 r2 r2' k : Char}
    (h2 : r2 ∈ RANKS) (h2' : r2' ∈ RANKS) (x : Str) :
    x ∈ parse_dashed_combo_range hands [r1, r2, k] [r1, r2', k] get_all_hands ↔
      x ∈ hands ∨ ∃ i, min (rankIdx r2) (rankIdx r2') ≤ i ∧
        i ≤ max (rankIdx r2) (rankIdx r2') ∧
        [r1, RANKS.getD i 'A', k] ∈ get_all_hands ∧ x = [r1, RANKS.getD i 'A', k] := by
  simp only [parse_dashed_combo_range]
  rw [if_neg (by simp)]
  rw [if_pos ⟨h2, h2'⟩]
  rw [mem_addCandidates]
  constructor
  · rintro (h | ⟨i, hi, hin, rfl⟩)
    · exact Or.inl h
    · rw [List.mem_range'_1] at hi
      exact Or.inr ⟨i, hi.1, by omega, hin, rfl⟩
  · rintro (h | ⟨i, hle1, hle2, hin, rfl⟩)
    · exact Or.inl h
    · refine Or.inr ⟨i, ?_, hin, rfl⟩
      rw [List.mem_range'_1]; omega

lemma parse_dashed_combo_range_diff (hands : Finset Str) {r1 r2 r1' r2' k k' : Char}
    (hne : r1 ≠ r1' ∨ k ≠ k') :
    parse_dashed_combo_range hands [r1, r2, k] [r1', r2', k'] get_all_hands = hands := by
  simp only [parse_dashed_combo_range]
  rw [if_pos hne]

lemma mem_parse_pairs_plus (hands : Finset Str) {a : Char} (ha : a ∈ RANKS) (x : Str) :
    x ∈ parse_pairs_plus hands [a, a] get_all_hands ↔
      x ∈ hands ∨ ∃ i, i ≤ rankIdx a ∧ x = [RANKS.getD i 'A', RANKS.getD i 'A'] := by
  have hma := rankIdx_lt_of_mem a ha
  unfold parse_pairs_plus
  rw [if_pos (show ([a, a] : Str).getD 0 ' ' ∈ RANKS from ha)]
  simp only [List.getD_cons_zero]
  rw [mem_addCandidates]
  constructor
  · rintro (h | ⟨i, hi, _, rfl⟩)
    · exact Or.inl h
    · rw [List.mem_range] at hi
      exact Or.inr ⟨i, by omega, rfl⟩
  · rintro (h | ⟨i, hle, rfl⟩)
    · exact Or.inl h
    · refine Or.inr ⟨i, ?_, ?_, rfl⟩
      · rw [List.mem_range]; omega
      · exact pair_mem_get_all_hands (getD_mem_ranks i (by omega))

lemma mem_parse_suited_offsuit_plus (hands : Finset Str) {a b k : Char}
    (hb : b ∈ RANKS) (x : Str) :
    x ∈ parse_suited_offsuit_plus hands [a, b, k] get_all_hands ↔
      x ∈ hands ∨ ∃ i, rankIdx b ≤ i ∧ i < 13 ∧
        [a, RANKS.getD i 'A', k] ∈ get_all_hands ∧ x = [a, RANKS.getD i 'A', k] := by
  have hmb := rankIdx_lt_of_mem b hb
  simp only [parse_suited_offsuit_plus]
  rw [if_pos hb]
  rw [mem_addCandidates]
  rw [ranks_length]
  constructor
  · rintro (h | ⟨i, hi, hin, rfl⟩)
    · exact Or.inl h
    · rw [List.mem_range'_1] at hi
      exact Or.inr ⟨i, hi.1, by omega, hin, rfl⟩
  · rintro (h | ⟨i, hle, hlt, hin, rfl⟩)
    · exact Or.inl h
    · refine Or.inr ⟨i, ?_, hin, rfl⟩
      rw [List.mem_range'_1]; omega

/-! ### Claims C6 and C7 -/

lemma token_chars_clean {t : Str}
    (h : ∀ c ∈ t, c ∈ RANKS ∨ c = 's' ∨ c = 'o' ∨ c = '-' ∨ c = '+') :
    (∀ c ∈ t, c ≠ ',') ∧ (∀ c ∈ t, c.isWhitespace = false) := by
  constructor <;> intro c hc
  · rcases h c hc with hr | rfl | rfl | rfl | rfl
    · exact ranks_ne_comma c hr
    all_goals decide
  · rcases h c hc with hr | rfl | rfl | rfl | rfl
    · exact ranks_not_whitespace c hr
    all_goals decide

/-- Claim C6: a dashed suited/offsuit token expands the secondary rank
inclusively between the endpoints exactly when both endpoints share the
primary rank and the `s`/`o` kind, and is silently skipped (empty result,
no error) otherwise. -/
theorem C6_dashed_combo_tokens (r1 r2 r1' r2' k k' : Char)
    (hr1 : r1 ∈ RANKS) (hr2 : r2 ∈ RANKS) (hr1' : r1' ∈ RANKS) (hr2' : r2' ∈ RANKS)
    (hk : k = 's' ∨ k = 'o') (hk' : k' = 's' ∨ k' = 'o') :
    ((r1 = r1' ∧ k = k') →
      ∀ x, x ∈ parse_range_text [r1, r2, k, '-', r1', r2', k'] ↔
        ∃ i, min (rankIdx r2) (rankIdx r2') ≤ i ∧ i ≤ max (rankIdx r2) (rankIdx r2') ∧
          [r1, RANKS.getD i 'A', k] ∈ get_all_hands ∧ x = [r1, RANKS.getD i 'A', k]) ∧
    ((r1 ≠ r1' ∨ k ≠ k') → parse_range_text [r1, r2, k, '-', r1', r2', k'] = ∅) := by
  have hclean := @token_chars_clean [r1, r2, k, '-', r1', r2', k'] (by
    intro c hc
    simp only [List.mem_cons, List.not_mem_nil, or_false] at hc
    rcases hc with rfl | rfl | rfl | rfl | rfl | rfl | rfl
    · exact Or.inl hr1
    · exact Or.inl hr2
    · rcases hk with rfl | rfl
      · exact Or.inr (Or.inl rfl)
      · exact Or.inr (Or.inr (Or.inl rfl))
    · exact Or.inr (Or.inr (Or.inr (Or.inl rfl)))
    · exact Or.inl hr1'
    · exact Or.inl hr2'
    · rcases hk' with rfl | rfl
      · exact Or.inr (Or.inl rfl)
      · exact Or.inr (Or.inr (Or.inl rfl)))
  have hsingle : parse_range_text [r1, r2, k, '-', r1', r2', k'] =
      parse_range_token get_all_hands ∅ [r1, r2, k, '-', r1', r2', k'] :=
    parse_range_text_single (by simp) hclean.1 hclean.2
  rw [hsingle, parse_token_dashed_so ∅ hr1 hr2 hr1' hr2' hk hk']
  constructor
  · rintro ⟨h1eq, h2eq⟩ x
    subst h1eq
    subst h2eq
    rw [mem_parse_dashed_combo_range_same ∅ hr2 hr2' x]
    simp
  · intro hne
    exact parse_dashed_combo_range_diff ∅ hne

/-- Witness for C6: `"K2o-KQo"` contains K5o, and the mixed-primary-rank
token `"A2s-KQs"` is silently dropped. -/
theorem C6_witness :
    strOf "K5o" ∈ parse_range_text (strOf "K2o-KQo") ∧
    parse_range_text (strOf "A2s-KQs") = ∅ := by
  constructor
  · exact ((C6_dashed_combo_tokens 'K' '2' 'K' 'Q' 'o' 'o' (by decide) (by decide)
      (by decide) (by decide) (Or.inr rfl) (Or.inr rfl)).1 ⟨rfl, rfl⟩ (strOf "K5o")).2
      ⟨9, by decide, by decide, by decide, by decide⟩
  · exact (C6_dashed_combo_tokens 'A' '2' 'K' 'Q' 's' 's' (by decide) (by decide)
      (by decide) (by decide) (Or.inl rfl) (Or.inl rfl)).2 (Or.inl (by decide))

/-- Claim C7: a plus-suffixed pair token adds that pair and all higher pairs
up to AA; a plus-suffixed suited/offsuit token adds the canonical classes
with the same primary rank and kind whose secondary rank lies between the
given rank and the weakest rank 2 (widening toward weaker kickers). -/
theorem C7_plus_tokens :
    (∀ a, a ∈ RANKS →
      ∀ x, x ∈ parse_range_text [a, a, '+'] ↔
        ∃ i, i ≤ rankIdx a ∧ x = [RANKS.getD i 'A', RANKS.getD i 'A']) ∧
    (∀ a b k, a ∈ RANKS → b ∈ RANKS → (k = 's' ∨ k = 'o') →
      ∀ x, x ∈ parse_range_text [a, b, k, '+'] ↔
        ∃ i, rankIdx b ≤ i ∧ i < 13 ∧ [a, RANKS.getD i 'A', k] ∈ get_all_hands ∧
          x = [a, RANKS.getD i 'A', k]) := by
  constructor
  · intro a ha x
    have hclean := @token_chars_clean [a, a, '+'] (by
      intro c hc
      simp only [List.mem_cons, List.not_mem_nil, or_false] at hc
      rcases hc with rfl | rfl | rfl
      · exact Or.inl ha
      · exact Or.inl ha
      · exact Or.inr (Or.inr (Or.inr (Or.inr rfl))))
    rw [parse_range_text_single (by simp) hclean.1 hclean.2,
      parse_token_pair_plus ∅ ha, mem_parse_pairs_plus ∅ ha x]
    simp
  · intro a b k ha hb hk x
    have hclean := @token_chars_clean [a, b, k, '+'] (by
      intro c hc
      simp only [List.mem_cons, List.not_mem_nil, or_false] at hc
      rcases hc with rfl | rfl | rfl | rfl
      · exact Or.inl ha
      · exact Or.inl hb
      · rcases hk with rfl | rfl
        · exact Or.inr (Or.inl rfl)
        · exact Or.inr (Or.inr (Or.inl rfl))
      · exact Or.inr (Or.inr (Or.inr (Or.inr rfl))))
    rw [parse_range_text_single (by simp) hclean.1 hclean.2,
      parse_token_so_plus ∅ ha hb hk, mem_parse_suited_offsuit_plus ∅ hb x]
    simp

/-- Witness for C7: `"TT+"` contains QQ, and `"A9s+"` contains A2s. -/
theorem C7_witness :
    strOf "QQ" ∈ parse_range_text (strOf "TT+") ∧
    strOf "A2s" ∈ parse_range_text (strOf "A9s+") := by
  constructor
  · exact (C7_plus_tokens.1 'T' (by decide) (strOf "QQ")).2 ⟨2, by decide, by decide⟩
  · exact (C7_plus_tokens.2 'A' '9' 's' (by decide) (by decide) (Or.inl rfl)
      (strOf "A2s")).2 ⟨12, by decide, by decide, by decide, by decide⟩

/-! ### `format_range_to_text` (the unnamed app file)

Python's `sorted` is modelled by a stable insertion sort with the relevant
boolean comparator; only permutation and sortedness of the output matter to
the source's logic. -/

/-- Insert into a sorted list, after any equal elements (stable). -/
def insertSorted (le : α → α → Bool) (x : α) : List α → List α
  | [] => [x]
  | y :: ys => if le x y then x :: y :: ys else y :: insertSorted le x ys

/-- Stable ascending sort by the boolean comparator `le`. -/
def sortBy (le : α → α → Bool) (l : List α) : List α := l.foldr (insertSorted le) []

/-- Python string `<` (code-point lexicographic). -/
def lexLt : Str → Str → Bool
  | [], [] => false
  | [], _ :: _ => true
  | _ :: _, [] => false
  | a :: as, b :: bs => if a < b then true else if b < a then false else lexLt as bs

/-- Python string `≤`, as used by `sorted(list(selected_hands_set))`. -/
def lexLe (a b : Str) : Bool := !(lexLt b a)

/-- Character `≤` (code points), for `sorted(suited.keys())`. -/
def charLe (a b : Char) : Bool := a ≤ b

/-- Comparator for `sorted(second_cards, key=lambda x: RANKS.index(x))`. -/
def rankLe (a b : Char) : Bool := rankIdx a ≤ rankIdx b

/-- `suited[first].append(second)` with `dict` insertion-order semantics:
append to an existing key's list, else add a new key at the end. -/
def groupAppend (key v : Char) : List (Char × List Char) → List (Char × List Char)
  | [] => [(key, [v])]
  | (k, vs) :: rest =>
    if k = key then (k, vs ++ [v]) :: rest else (k, vs) :: groupAppend key v rest

/-- The single pass of `format_range_to_text` that fills the `suited` (or
`offsuit`) dict: hands of length 2 are pairs and skipped here; otherwise a
hand ending in `kind` contributes `(hand[0], hand[1])`. -/
def buildGroups (kind : Char) (hands : List Str) : List (Char × List Char) :=
  hands.foldl (fun acc h =>
    if h.length ≠ 2 ∧ h.getLastD ' ' = kind then
      groupAppend (h.getD 0 ' ') (h.getD 1 ' ') acc
    else acc) []

/-- `suited[first_card]` lookup. -/
def lookupGroup (fc : Char) (groups : List (Char × List Char)) : List Char :=
  match groups.find? (fun g => g.1 == fc) with
  | some g => g.2
  | none => []

/-- Flushing one `current_range` of consecutive pairs: `>2` collapses to a
dashed range from the last (weakest) to the first (strongest), `==2` emits
the two pairs reversed, otherwise the single pair. -/
def format_pairs_run (current_range : List Char) : List Str :=
  if 2 < current_range.length then
    [[current_range.getLastD 'A', current_range.getLastD 'A', '-',
      current_range.headD 'A', current_range.headD 'A']]
  else if current_range.length = 2 then
    current_range.reverse.map (fun c => [c, c])
  else [[current_range.headD 'A', current_range.headD 'A']]

/-- The `for i in range(1, len(pairs))` loop of `format_range_to_text`:
`current_range` grows while each next pair's rank index is exactly one less
than the previous one's (computed in `ℤ`, as Python's `- 1` may go to `-1`),
and is flushed at each gap and at the end. -/
def format_pairs_loop (current_range : List Char) : List Char → List Str
  | [] => format_pairs_run current_range
  | p :: rest =>
    if (rankIdx p : ℤ) ≠ (rankIdx (current_range.getLastD 'A') : ℤ) - 1 then
      format_pairs_run current_range ++ format_pairs_loop [p] rest
    else format_pairs_loop (current_range ++ [p]) rest

/-- The pairs section: nothing if no pairs, else the run loop seeded with the
first pair. -/
def format_pairs : List Char → List Str
  | [] => []
  | p :: rest => format_pairs_loop [p] rest

/-- One suited/offsuit group: `>2` second cards collapse to
`"{first}{weakest}{kind}-{first}{strongest}{kind}"`, else the single hands in
reversed order. -/
def format_so_group (kind fc : Char) (second_cards : List Char) : List Str :=
  if 2 < second_cards.length then
    [[fc, second_cards.getLastD 'A', kind, '-', fc, second_cards.headD 'A', kind]]
  else second_cards.reverse.map (fun sc => [fc, sc, kind])

/-- One suited/offsuit section: keys in sorted order, each group's second
cards sorted by rank index. -/
def format_so_section (kind : Char) (groups : List (Char × List Char)) : List Str :=
  (sortBy charLe (groups.map Prod.fst)).flatMap fun fc =>
    format_so_group kind fc (sortBy rankLe (lookupGroup fc groups))

/-- Python `",".join(result)`. -/
def joinComma : List Str → Str
  | [] => []
  | [t] => t
  | t :: rest => t ++ ',' :: joinComma rest

/-- The token list assembled by `format_range_to_text` from the sorted hand
list: pairs, then suited groups, then offsuit groups. -/
def format_tokens (hands : List Str) : List Str :=
  format_pairs ((hands.filter (fun h => h.length = 2)).map (fun h => h.getD 0 ' ')) ++
  format_so_section 's' (buildGroups 's' hands) ++
  format_so_section 'o' (buildGroups 'o' hands)

/-- `format_range_to_text` from the app file.  The Python set argument is
modelled as a duplicate-free list; the function first sorts it, exactly as
`sorted(list(selected_hands_set))` does. -/
def format_range_to_text (selected_hands_set : List Str) : Str :=
  if selected_hands_set = [] then []
  else joinComma (format_tokens (sortBy lexLe selected_hands_set))

/-! ### Claim C1: the codec round-trip -/

/-- Counterexample to C1 as stated: `{A2s, A7s, AKs}` is producible by
`parse_range_text` (from exact-class tokens, the claim's own example), but
`format_range_to_text` collapses the non-contiguous suited group into the
dashed token `"A2s-AKs"`, which parses back to all twelve classes A2s..AKs. -/
theorem C1_counterexample :
    parse_range_text (strOf "A2s,A7s,AKs") =
      ([strOf "A2s", strOf "A7s", strOf "AKs"] : List Str).toFinset ∧
    parse_range_text (format_range_to_text [strOf "A2s", strOf "A7s", strOf "AKs"]) ≠
      ([strOf "A2s", strOf "A7s", strOf "AKs"] : List Str).toFinset := by
  constructor <;> decide

/-! Machinery for the amended round-trip claim. -/

lemma insertSorted_perm (le : α → α → Bool) (x : α) :
    ∀ l : List α, (insertSorted le x l).Perm (x :: l) := by
  intro l
  induction l with
  | nil => exact List.Perm.refl _
  | cons y ys ih =>
    by_cases h : le x y = true
    · simp [insertSorted, h]
    · simp only [insertSorted, if_neg h]
      exact (ih.cons y).trans (List.Perm.swap x y ys)

lemma sortBy_perm (le : α → α → Bool) : ∀ l : List α, (sortBy le l).Perm l := by
  intro l
  induction l with
  | nil => exact List.Perm.refl _
  | cons x xs ih =>
    show (insertSorted le x (sortBy le xs)).Perm (x :: xs)
    exact (insertSorted_perm le x (sortBy le xs)).trans (ih.cons x)

lemma mem_insertSorted (le : α → α → Bool) (x a : α) (l : List α) :
    a ∈ insertSorted le x l ↔ a = x ∨ a ∈ l :=
  by simpa using (insertSorted_perm le x l).mem_iff

/-- Sortedness (by rank index) of the second-card lists. -/
def SortedRank (l : List Char) : Prop :=
  l.Pairwise (fun a b => rankIdx a ≤ rankIdx b)

lemma insertSorted_rank_sorted (x : Char) :
    ∀ {l : List Char}, SortedRank l → SortedRank (insertSorted rankLe x l) := by
  intro l
  induction l with
  | nil => intro _; simp [insertSorted, SortedRank]
  | cons y ys ih =>
    intro hs
    have hys := (List.pairwise_cons.1 hs).2
    have hyall := (List.pairwise_cons.1 hs).1
    by_cases h : rankLe x y = true
    · have hxy : rankIdx x ≤ rankIdx y := by simpa [rankLe] using h
      simp only [insertSorted, if_pos h]
      refine List.pairwise_cons.2 ⟨?_, hs⟩
      intro b hb
      rcases List.mem_cons.1 hb with rfl | hb'
      · exact hxy
      · exact hxy.trans (hyall b hb')
    · have hyx : rankIdx y ≤ rankIdx x := by
        have := (by simpa [rankLe] using h : ¬ rankIdx x ≤ rankIdx y)
        omega
      simp only [insertSorted, if_neg h]
      refine List.pairwise_cons.2 ⟨?_, ih hys⟩
      intro b hb
      rcases (mem_insertSorted rankLe x b ys).1 hb with rfl | hb'
      · exact hyx
      · exact hyall b hb'

lemma sortBy_rank_sorted : ∀ l : List Char, SortedRank (sortBy rankLe l) := by
  intro l
  induction l with
  | nil => simp [sortBy, SortedRank]
  | cons x xs ih => exact insertSorted_rank_sorted x ih

/-- In a rank-sorted nonempty list, the head has the least rank index. -/
lemma sortedRank_headD_le {l : List Char} (hs : SortedRank l) :
    ∀ c ∈ l, rankIdx (l.headD 'A') ≤ rankIdx c := by
  cases l with
  | nil => intro c hc; simp at hc
  | cons y ys =>
    intro c hc
    rcases List.mem_cons.1 hc with rfl | hc'
    · simp
    · exact (List.pairwise_cons.1 hs).1 c hc'

/-- Any two defaults agree on `getLastD` of a nonempty list. -/
lemma getLastD_default_irrel : ∀ (l : List Char), l ≠ [] →
    ∀ d₁ d₂ : Char, l.getLastD d₁ = l.getLastD d₂
  | [], h, _, _ => absurd rfl h
  | _ :: _, _, _, _ => by simp only [List.getLastD_cons]

/-- In a rank-sorted nonempty list, the last element has the greatest rank
index. -/
lemma sortedRank_le_getLastD {l : List Char} (hs : SortedRank l) :
    ∀ c ∈ l, rankIdx c ≤ rankIdx (l.getLastD 'A') := by
  induction l with
  | nil => intro c hc; simp at hc
  | cons y ys ih =>
    intro c hc
    cases ys with
    | nil => simp at hc; simp [hc]
    | cons z zs =>
      rw [List.getLastD_cons]
      have hys := (List.pairwise_cons.1 hs).2
      have hlast : (z :: zs).getLastD y = (z :: zs).getLastD 'A' :=
        getLastD_default_irrel (z :: zs) (by simp) y 'A'
      rw [hlast]
      rcases List.mem_cons.1 hc with rfl | hc'
      · have hz : z ∈ z :: zs := by simp
        exact ((List.pairwise_cons.1 hs).1 z hz).trans (ih hys z hz)
      · exact ih hys c hc'


/-- A maximal `current_range` of the pairs loop: rank characters with
consecutive descending rank indices, starting at index `a`. -/
def descRun (a : ℕ) : ℕ → List Char
  | 0 => [RANKS.getD a 'A']
  | m + 1 => RANKS.getD a 'A' :: descRun (a - 1) m

lemma descRun_ne_nil (a m : ℕ) : descRun a m ≠ [] := by
  cases m <;> simp [descRun]

lemma descRun_length : ∀ (m a : ℕ), (descRun a m).length = m + 1 := by
  intro m
  induction m with
  | zero => intro a; simp [descRun]
  | succ m ih => intro a; simp [descRun, ih (a - 1)]

lemma descRun_headD : ∀ (m a : ℕ), (descRun a m).headD 'A' = RANKS.getD a 'A' := by
  intro m
  cases m <;> intro a <;> simp [descRun]

lemma descRun_getLastD : ∀ (m a : ℕ), (descRun a m).getLastD 'A' = RANKS.getD (a - m) 'A' := by
  intro m
  induction m with
  | zero => intro a; simp [descRun]
  | succ m ih =>
    intro a
    show (RANKS.getD a 'A' :: descRun (a - 1) m).getLastD 'A' = _
    rw [List.getLastD_cons,
      getLastD_default_irrel (descRun (a - 1) m) (descRun_ne_nil _ _) _ 'A', ih (a - 1)]
    congr 1
    omega

lemma mem_descRun : ∀ (m a : ℕ) (c : Char),
    c ∈ descRun a m ↔ ∃ j, j ≤ m ∧ c = RANKS.getD (a - j) 'A' := by
  intro m
  induction m with
  | zero =>
    intro a c
    simp only [descRun, List.mem_singleton]
    constructor
    · rintro rfl; exact ⟨0, le_refl 0, by simp⟩
    · rintro ⟨j, hj, rfl⟩; simp [Nat.le_zero.1 hj]
  | succ m ih =>
    intro a c
    simp only [descRun, List.mem_cons, ih (a - 1)]
    constructor
    · rintro (rfl | ⟨j, hj, rfl⟩)
      · exact ⟨0, by omega, by simp⟩
      · exact ⟨j + 1, by omega, by rw [show a - (j + 1) = a - 1 - j by omega]⟩
    · rintro ⟨j, hj, rfl⟩
      match j with
      | 0 => exact Or.inl (by simp)
      | j + 1 => exact Or.inr ⟨j, by omega, by rw [show a - 1 - j = a - (j + 1) by omega]⟩

/-- Appending the next consecutive rank to a run. -/
lemma descRun_append : ∀ (m a : ℕ), m + 1 ≤ a →
    descRun a m ++ [RANKS.getD (a - (m + 1)) 'A'] = descRun a (m + 1) := by
  intro m
  induction m with
  | zero => intro a _; simp [descRun]
  | succ m ih =>
    intro a ha
    show (RANKS.getD a 'A' :: descRun (a - 1) m) ++ _ = RANKS.getD a 'A' :: descRun (a - 1) (m + 1)
    rw [List.cons_append]
    congr 1
    rw [show a - (m + 1 + 1) = a - 1 - (m + 1) by omega]
    exact ih (a - 1) (by omega)

lemma splitOnChar_ne_nil (sep : Char) : ∀ s : Str, splitOnChar sep s ≠ [] := by
  intro s
  cases s with
  | nil => simp [splitOnChar]
  | cons c rest =>
    simp only [splitOnChar]
    rcases hsp : splitOnChar sep rest with _ | ⟨h, tl⟩
    · exact absurd hsp (splitOnChar_ne_nil sep rest)
    · show (if c = sep then [] :: h :: tl else (c :: h) :: tl) ≠ []
      split <;> simp

lemma splitOnChar_append_sep {sep : Char} :
    ∀ {t rest : Str}, (∀ c ∈ t, c ≠ sep) →
      splitOnChar sep (t ++ sep :: rest) = t :: splitOnChar sep rest := by
  intro t
  induction t with
  | nil =>
    intro rest _
    show splitOnChar sep (sep :: rest) = [] :: splitOnChar sep rest
    simp only [splitOnChar]
    rcases hsp : splitOnChar sep rest with _ | ⟨h, tl⟩
    · exact absurd hsp (splitOnChar_ne_nil sep rest)
    · simp
  | cons c t' ih =>
    intro rest hc
    show splitOnChar sep (c :: (t' ++ sep :: rest)) = (c :: t') :: splitOnChar sep rest
    simp only [splitOnChar]
    rw [ih (fun d hd => hc d (by simp [hd]))]
    simp [hc c (by simp)]

lemma splitOnChar_joinComma :
    ∀ {toks : List Str}, toks ≠ [] → (∀ t ∈ toks, ∀ c ∈ t, c ≠ ',') →
      splitOnChar ',' (joinComma toks) = toks
  | [], h, _ => absurd rfl h
  | [t], _, hc => by
    show splitOnChar ',' t = [t]
    exact splitOnChar_eq_single (hc t (by simp))
  | t :: t' :: rest, _, hc => by
    have ih := @splitOnChar_joinComma (t' :: rest) (by simp)
      (fun u hu => hc u (List.mem_cons_of_mem t hu))
    show splitOnChar ',' (t ++ ',' :: joinComma (t' :: rest)) = t :: t' :: rest
    rw [splitOnChar_append_sep (hc t (by simp)), ih]

/-- Parsing a comma-joined list of clean tokens folds the token step over the
token list. -/
lemma parse_range_text_joinComma {toks : List Str} (hne : toks ≠ [])
    (hcf : ∀ t ∈ toks, t ≠ [] ∧ (∀ c ∈ t, c ≠ ',') ∧ (∀ c ∈ t, c.isWhitespace = false)) :
    parse_range_text (joinComma toks) =
      toks.foldl (parse_range_token get_all_hands) ∅ := by
  unfold parse_range_text
  rw [splitOnChar_joinComma hne (fun t ht => (hcf t ht).2.1)]
  have hmap : toks.map stripStr = toks := by
    conv_rhs => rw [← List.map_id toks]
    exact List.map_congr_left (fun t ht => stripStr_eq_self ((hcf t ht).2.2))
  rw [hmap]
  have hfilter : toks.filter (· ≠ []) = toks :=
    List.filter_eq_self.2 (fun t ht => by simpa using (hcf t ht).1)
  rw [hfilter]

/-- If every token's contribution is independent of the accumulated set, the
fold is characterized by per-token membership. -/
lemma fold_union {all : List Str} : ∀ (toks : List Str),
    (∀ t ∈ toks, ∀ (hands : Finset Str) (x : Str),
      x ∈ parse_range_token all hands t ↔ x ∈ hands ∨ x ∈ parse_range_token all ∅ t) →
    ∀ (acc : Finset Str) (x : Str),
      x ∈ toks.foldl (parse_range_token all) acc ↔
        x ∈ acc ∨ ∃ t ∈ toks, x ∈ parse_range_token all ∅ t := by
  intro toks
  induction toks with
  | nil => intro _ acc x; simp
  | cons t rest ih =>
    intro hadd acc x
    show x ∈ rest.foldl (parse_range_token all) (parse_range_token all acc t) ↔ _
    rw [ih (fun u hu => hadd u (List.mem_cons_of_mem t hu)) (parse_range_token all acc t) x,
      hadd t (by simp) acc x]
    constructor
    · rintro ((hx | hx) | ⟨u, hu, hx⟩)
      · exact Or.inl hx
      · exact Or.inr ⟨t, by simp, hx⟩
      · exact Or.inr ⟨u, by simp [hu], hx⟩
    · rintro (hx | ⟨u, hu, hx⟩)
      · exact Or.inl (Or.inl hx)
      · rcases List.mem_cons.1 hu with rfl | hu'
        · exact Or.inl (Or.inr hx)
        · exact Or.inr ⟨u, hu', hx⟩

/-- The four token shapes that `format_range_to_text` can emit. -/
def EmittedToken (t : Str) : Prop :=
  (∃ a, a ∈ RANKS ∧ t = [a, a]) ∨
  (∃ a b, a ∈ RANKS ∧ b ∈ RANKS ∧ t = [a, a, '-', b, b]) ∨
  (∃ a b k, a ∈ RANKS ∧ b ∈ RANKS ∧ (k = 's' ∨ k = 'o') ∧
    [a, b, k] ∈ get_all_hands ∧ t = [a, b, k]) ∨
  (∃ a b c k, a ∈ RANKS ∧ b ∈ RANKS ∧ c ∈ RANKS ∧ (k = 's' ∨ k = 'o') ∧
    t = [a, b, k, '-', a, c, k])

lemma emitted_clean {t : Str} (h : EmittedToken t) :
    t ≠ [] ∧ (∀ c ∈ t, c ≠ ',') ∧ (∀ c ∈ t, c.isWhitespace = false) := by
  have hchars : ∀ c ∈ t, c ∈ RANKS ∨ c = 's' ∨ c = 'o' ∨ c = '-' ∨ c = '+' := by
    rcases h with ⟨a, ha, rfl⟩ | ⟨a, b, ha, hb, rfl⟩ |
      ⟨a, b, k, ha, hb, hk, _, rfl⟩ | ⟨a, b, c, k, ha, hb, hc, hk, rfl⟩ <;>
      intro d hd <;> simp only [List.mem_cons, List.not_mem_nil, or_false] at hd
    · rcases hd with rfl | rfl <;> exact Or.inl ha
    · rcases hd with rfl | rfl | rfl | rfl | rfl
      · exact Or.inl ha
      · exact Or.inl ha
      · exact Or.inr (Or.inr (Or.inr (Or.inl rfl)))
      · exact Or.inl hb
      · exact Or.inl hb
    · rcases hd with rfl | rfl | rfl
      · exact Or.inl ha
      · exact Or.inl hb
      · rcases hk with rfl | rfl
        · exact Or.inr (Or.inl rfl)
        · exact Or.inr (Or.inr (Or.inl rfl))
    · rcases hd with rfl | rfl | rfl | rfl | rfl | rfl | rfl
      · exact Or.inl ha
      · exact Or.inl hb
      · rcases hk with rfl | rfl
        · exact Or.inr (Or.inl rfl)
        · exact Or.inr (Or.inr (Or.inl rfl))
      · exact Or.inr (Or.inr (Or.inr (Or.inl rfl)))
      · exact Or.inl ha
      · exact Or.inl hc
      · rcases hk with rfl | rfl
        · exact Or.inr (Or.inl rfl)
        · exact Or.inr (Or.inr (Or.inl rfl))
  refine ⟨?_, (token_chars_clean hchars).1, (token_chars_clean hchars).2⟩
  rcases h with ⟨a, _, rfl⟩ | ⟨a, b, _, _, rfl⟩ | ⟨a, b, k, _, _, _, _, rfl⟩ |
    ⟨a, b, c, k, _, _, _, _, rfl⟩ <;> simp

lemma emitted_additive {t : Str} (h : EmittedToken t) :
    ∀ (hands : Finset Str) (x : Str),
      x ∈ parse_range_token get_all_hands hands t ↔
        x ∈ hands ∨ x ∈ parse_range_token get_all_hands ∅ t := by
  intro hands x
  rcases h with ⟨a, ha, rfl⟩ | ⟨a, b, ha, hb, rfl⟩ |
    ⟨a, b, k, ha, hb, hk, hm, rfl⟩ | ⟨a, b, c, k, ha, hb, hc, hk, rfl⟩
  · rw [parse_token_pair hands ha, parse_token_pair ∅ ha]
    simp [or_comm]
  · rw [parse_token_dashed_pairs hands ha hb, parse_token_dashed_pairs ∅ ha hb,
      mem_parse_dashed_pairs_range hands ha hb x, mem_parse_dashed_pairs_range ∅ ha hb x]
    simp
  · rw [parse_token_so_mem hands ha hb hk hm, parse_token_so_mem ∅ ha hb hk hm]
    simp [or_comm]
  · rw [parse_token_dashed_so hands ha hb ha hc hk hk,
      parse_token_dashed_so ∅ ha hb ha hc hk hk,
      mem_parse_dashed_combo_range_same hands hb hc x,
      mem_parse_dashed_combo_range_same ∅ hb hc x]
    simp

/-- Soundness of one flushed pairs run: its tokens parse back to exactly the
pairs of the run. -/
lemma format_pairs_run_sound (a m : ℕ) (hm : m ≤ a) (ha : a < 13) (x : Str) :
    (∃ t ∈ format_pairs_run (descRun a m), x ∈ parse_range_token get_all_hands ∅ t) ↔
      ∃ c ∈ descRun a m, x = [c, c] := by
  have hlen := descRun_length m a
  match m with
  | 0 =>
    have : format_pairs_run (descRun a 0) = [[RANKS.getD a 'A', RANKS.getD a 'A']] := by
      simp [format_pairs_run, descRun]
    rw [this]
    simp only [List.mem_singleton, descRun]
    constructor
    · rintro ⟨t, rfl, hx⟩
      rw [parse_token_pair ∅ (getD_mem_ranks a ha)] at hx
      simp only [Finset.mem_insert, Finset.not_mem_empty, or_false] at hx
      exact ⟨RANKS.getD a 'A', by simp, hx⟩
    · rintro ⟨c, hc, rfl⟩
      subst hc
      exact ⟨_, rfl, by
        rw [parse_token_pair ∅ (getD_mem_ranks a ha)]
        exact Finset.mem_insert_self _ _⟩
  | 1 =>
    have hd : descRun a 1 = [RANKS.getD a 'A', RANKS.getD (a - 1) 'A'] := by
      simp [descRun]
    have : format_pairs_run (descRun a 1) =
        [[RANKS.getD (a - 1) 'A', RANKS.getD (a - 1) 'A'], [RANKS.getD a 'A', RANKS.getD a 'A']] := by
      rw [hd]; simp [format_pairs_run]
    rw [this, hd]
    have h1 := getD_mem_ranks a ha
    have h2 := getD_mem_ranks (a - 1) (by omega)
    constructor
    · rintro ⟨t, ht, hx⟩
      simp only [List.mem_cons, List.not_mem_nil, or_false] at ht
      rcases ht with rfl | rfl
      · rw [parse_token_pair ∅ h2] at hx
        simp only [Finset.mem_insert, Finset.not_mem_empty, or_false] at hx
        exact ⟨RANKS.getD (a - 1) 'A', by simp, hx⟩
      · rw [parse_token_pair ∅ h1] at hx
        simp only [Finset.mem_insert, Finset.not_mem_empty, or_false] at hx
        exact ⟨RANKS.getD a 'A', by simp, hx⟩
    · rintro ⟨c, hc, rfl⟩
      simp only [List.mem_cons, List.not_mem_nil, or_false] at hc
      rcases hc with rfl | rfl
      · refine ⟨[RANKS.getD a 'A', RANKS.getD a 'A'], ?_, ?_⟩
        · simp
        · rw [parse_token_pair ∅ h1]
          exact Finset.mem_insert_self _ _
      · refine ⟨[RANKS.getD (a - 1) 'A', RANKS.getD (a - 1) 'A'], ?_, ?_⟩
        · simp
        · rw [parse_token_pair ∅ h2]
          exact Finset.mem_insert_self _ _
  | m + 2 =>
    have hgt : 2 < (descRun a (m + 2)).length := by omega
    have : format_pairs_run (descRun a (m + 2)) =
        [[RANKS.getD (a - (m + 2)) 'A', RANKS.getD (a - (m + 2)) 'A', '-',
          RANKS.getD a 'A', RANKS.getD a 'A']] := by
      unfold format_pairs_run
      rw [if_pos hgt, descRun_getLastD, descRun_headD]
    rw [this]
    have h1 := getD_mem_ranks (a - (m + 2)) (by omega)
    have h2 := getD_mem_ranks a ha
    simp only [List.mem_singleton]
    constructor
    · rintro ⟨t, rfl, hx⟩
      rw [parse_token_dashed_pairs ∅ h1 h2, mem_parse_dashed_pairs_range ∅ h1 h2 x] at hx
      rcases hx with hx | ⟨i, hi1, hi2, rfl⟩
      · simp at hx
      · rw [rankIdx_getD _ (by omega), rankIdx_getD _ ha] at hi1 hi2
        refine ⟨RANKS.getD i 'A', ?_, rfl⟩
        rw [mem_descRun]
        exact ⟨a - i, by omega, by congr 1; omega⟩
    · rintro ⟨c, hc, rfl⟩
      rw [mem_descRun] at hc
      obtain ⟨j, hj, rfl⟩ := hc
      refine ⟨_, rfl, ?_⟩
      rw [parse_token_dashed_pairs ∅ h1 h2, mem_parse_dashed_pairs_range ∅ h1 h2]
      refine Or.inr ⟨a - j, ?_, ?_, rfl⟩
      · rw [rankIdx_getD _ (by omega), rankIdx_getD _ ha]; omega
      · rw [rankIdx_getD _ (by omega), rankIdx_getD _ ha]; omega

/-- Computed forms of `format_pairs_run` on runs of each size. -/
lemma format_pairs_run_descRun0 (a : ℕ) :
    format_pairs_run (descRun a 0) = [[RANKS.getD a 'A', RANKS.getD a 'A']] := by
  simp [format_pairs_run, descRun]

lemma format_pairs_run_descRun1 (a : ℕ) :
    format_pairs_run (descRun a 1) =
      [[RANKS.getD (a - 1) 'A', RANKS.getD (a - 1) 'A'],
       [RANKS.getD a 'A', RANKS.getD a 'A']] := by
  show format_pairs_run [RANKS.getD a 'A', RANKS.getD (a - 1) 'A'] = _
  simp [format_pairs_run]

lemma format_pairs_run_descRun2 (a m : ℕ) :
    format_pairs_run (descRun a (m + 2)) =
      [[RANKS.getD (a - (m + 2)) 'A', RANKS.getD (a - (m + 2)) 'A', '-',
        RANKS.getD a 'A', RANKS.getD a 'A']] := by
  unfold format_pairs_run
  rw [if_pos (by rw [descRun_length]; omega), descRun_getLastD, descRun_headD]

/-- Every token flushed from a run is an emitted-token shape. -/
lemma format_pairs_run_emitted (a m : ℕ) (hm : m ≤ a) (ha : a < 13) :
    ∀ t ∈ format_pairs_run (descRun a m), EmittedToken t := by
  match m with
  | 0 =>
    intro t ht
    rw [format_pairs_run_descRun0] at ht
    simp only [List.mem_singleton] at ht
    subst ht
    exact Or.inl ⟨RANKS.getD a 'A', getD_mem_ranks a ha, rfl⟩
  | 1 =>
    intro t ht
    rw [format_pairs_run_descRun1] at ht
    simp only [List.mem_cons, List.not_mem_nil, or_false] at ht
    rcases ht with rfl | rfl
    · exact Or.inl ⟨RANKS.getD (a - 1) 'A', getD_mem_ranks (a - 1) (by omega), rfl⟩
    · exact Or.inl ⟨RANKS.getD a 'A', getD_mem_ranks a ha, rfl⟩
  | m + 2 =>
    intro t ht
    rw [format_pairs_run_descRun2] at ht
    simp only [List.mem_singleton] at ht
    subst ht
    exact Or.inr (Or.inl ⟨RANKS.getD (a - (m + 2)) 'A', RANKS.getD a 'A',
      getD_mem_ranks _ (by omega), getD_mem_ranks a ha, rfl⟩)

/-- Soundness of the pairs run loop: all emitted tokens are well-shaped and
together parse back to exactly the pairs of `current_range ++ rest`. -/
lemma format_pairs_loop_sound :
    ∀ (rest : List Char) (a m : ℕ), m ≤ a → a < 13 → (∀ c ∈ rest, c ∈ RANKS) →
      (∀ x, (∃ t ∈ format_pairs_loop (descRun a m) rest,
          x ∈ parse_range_token get_all_hands ∅ t) ↔
        ((∃ c ∈ descRun a m, x = [c, c]) ∨ (∃ c ∈ rest, x = [c, c]))) ∧
      (∀ t ∈ format_pairs_loop (descRun a m) rest, EmittedToken t) := by
  intro rest
  induction rest with
  | nil =>
    intro a m hm ha _
    constructor
    · intro x
      show (∃ t ∈ format_pairs_run (descRun a m), _) ↔ _
      rw [format_pairs_run_sound a m hm ha x]
      simp
    · intro t ht
      exact format_pairs_run_emitted a m hm ha t ht
  | cons p rest' ih =>
    intro a m hm ha hrest
    have hp : p ∈ RANKS := hrest p (by simp)
    have hpl := rankIdx_lt_of_mem p hp
    have hgl : rankIdx ((descRun a m).getLastD 'A') = a - m := by
      rw [descRun_getLastD, rankIdx_getD _ (by omega)]
    have heq : format_pairs_loop (descRun a m) (p :: rest') =
        if (rankIdx p : ℤ) ≠ (rankIdx ((descRun a m).getLastD 'A') : ℤ) - 1 then
          format_pairs_run (descRun a m) ++ format_pairs_loop [p] rest'
        else format_pairs_loop (descRun a m ++ [p]) rest' := rfl
    by_cases hgap : (rankIdx p : ℤ) ≠ ((a - m : ℕ) : ℤ) - 1
    · have hrw : format_pairs_loop (descRun a m) (p :: rest') =
          format_pairs_run (descRun a m) ++ format_pairs_loop [p] rest' := by
        rw [heq, if_pos (by rw [hgl]; exact hgap)]
      have hpd : [p] = descRun (rankIdx p) 0 := by
        show [p] = [RANKS.getD (rankIdx p) 'A']
        rw [ranks_getD_rankIdx p hp]
      have ihp := ih (rankIdx p) 0 (by omega) hpl (fun c hc => hrest c (by simp [hc]))
      rw [hpd] at hrw
      constructor
      · intro x
        rw [hrw]
        constructor
        · rintro ⟨t, ht, hx⟩
          rcases List.mem_append.1 ht with ht' | ht'
          · exact Or.inl ((format_pairs_run_sound a m hm ha x).1 ⟨t, ht', hx⟩)
          · rcases (ihp.1 x).1 ⟨t, ht', hx⟩ with ⟨d, hd, rfl⟩ | ⟨d, hd, rfl⟩
            · rw [← hpd] at hd
              simp only [List.mem_singleton] at hd
              subst hd
              exact Or.inr ⟨d, by simp, rfl⟩
            · exact Or.inr ⟨d, by simp [hd], rfl⟩
        · rintro (⟨c, hc, rfl⟩ | ⟨c, hc, rfl⟩)
          · obtain ⟨t, ht, hx⟩ := (format_pairs_run_sound a m hm ha [c, c]).2 ⟨c, hc, rfl⟩
            exact ⟨t, List.mem_append.2 (Or.inl ht), hx⟩
          · rcases List.mem_cons.1 hc with rfl | hc'
            · obtain ⟨t, ht, hx⟩ := (ihp.1 [c, c]).2 (Or.inl ⟨c, by rw [← hpd]; simp, rfl⟩)
              exact ⟨t, List.mem_append.2 (Or.inr ht), hx⟩
            · obtain ⟨t, ht, hx⟩ := (ihp.1 [c, c]).2 (Or.inr ⟨c, hc', rfl⟩)
              exact ⟨t, List.mem_append.2 (Or.inr ht), hx⟩
      · intro t ht
        rw [hrw] at ht
        rcases List.mem_append.1 ht with ht' | ht'
        · exact format_pairs_run_emitted a m hm ha t ht'
        · exact ihp.2 t ht'
    · push_neg at hgap
      have h1 : 1 ≤ a - m := by omega
      have hidxp : rankIdx p = a - (m + 1) := by omega
      have hm1 : m + 1 ≤ a := by omega
      have hpid : p = RANKS.getD (a - (m + 1)) 'A' := by
        rw [← hidxp, ranks_getD_rankIdx p hp]
      have happ : descRun a m ++ [p] = descRun a (m + 1) := by
        rw [hpid]
        exact descRun_append m a hm1
      have hrw : format_pairs_loop (descRun a m) (p :: rest') =
          format_pairs_loop (descRun a (m + 1)) rest' := by
        rw [heq, if_neg (by rw [hgl]; omega), happ]
      have ihp := ih a (m + 1) hm1 ha (fun c hc => hrest c (by simp [hc]))
      have hmem : ∀ c : Char, c ∈ descRun a (m + 1) ↔ c ∈ descRun a m ∨ c = p := by
        intro c
        rw [← happ]
        simp
      constructor
      · intro x
        rw [hrw, ihp.1 x]
        constructor
        · rintro (⟨c, hc, rfl⟩ | ⟨c, hc, rfl⟩)
          · rcases (hmem c).1 hc with hc' | rfl
            · exact Or.inl ⟨c, hc', rfl⟩
            · exact Or.inr ⟨c, by simp, rfl⟩
          · exact Or.inr ⟨c, by simp [hc], rfl⟩
        · rintro (⟨c, hc, rfl⟩ | ⟨c, hc, rfl⟩)
          · exact Or.inl ⟨c, (hmem c).2 (Or.inl hc), rfl⟩
          · rcases List.mem_cons.1 hc with rfl | hc'
            · exact Or.inl ⟨c, (hmem c).2 (Or.inr rfl), rfl⟩
            · exact Or.inr ⟨c, hc', rfl⟩
      · intro t ht
        rw [hrw] at ht
        exact ihp.2 t ht

/-- Soundness of the pairs section of `format_range_to_text`. -/
lemma format_pairs_sound (pairsChars : List Char) (hp : ∀ c ∈ pairsChars, c ∈ RANKS) :
    (∀ x, (∃ t ∈ format_pairs pairsChars, x ∈ parse_range_token get_all_hands ∅ t) ↔
      ∃ c ∈ pairsChars, x = [c, c]) ∧
    (∀ t ∈ format_pairs pairsChars, EmittedToken t) := by
  cases pairsChars with
  | nil => constructor <;> intro x <;> simp [format_pairs]
  | cons p rest =>
    have hpm : p ∈ RANKS := hp p (by simp)
    have hpd : [p] = descRun (rankIdx p) 0 := by
      show [p] = [RANKS.getD (rankIdx p) 'A']
      rw [ranks_getD_rankIdx p hpm]
    have hloop := format_pairs_loop_sound rest (rankIdx p) 0 (by omega)
      (rankIdx_lt_of_mem p hpm) (fun c hc => hp c (by simp [hc]))
    constructor
    · intro x
      show (∃ t ∈ format_pairs_loop [p] rest, _) ↔ _
      rw [hpd, hloop.1 x, ← hpd]
      simp
    · intro t ht
      have : t ∈ format_pairs_loop (descRun (rankIdx p) 0) rest := by
        rw [← hpd]; exact ht
      exact hloop.2 t this

/-! ### The suited/offsuit group dictionaries -/

/-- The second cards of the `(kind, fc)` group, in hand-list order. -/
def groupSeconds (kind fc : Char) (l : List Str) : List Char :=
  (l.filter (fun h => h.length ≠ 2 ∧ h.getLastD ' ' = kind ∧ h.getD 0 ' ' = fc)).map
    (fun h => h.getD 1 ' ')

lemma lookupGroup_cons (fc k : Char) (vs : List Char) (rest : List (Char × List Char)) :
    lookupGroup fc ((k, vs) :: rest) = if k = fc then vs else lookupGroup fc rest := by
  unfold lookupGroup
  by_cases h : k = fc
  · rw [List.find?_cons_of_pos _ (by simpa using h), if_pos h]
  · rw [List.find?_cons_of_neg _ (by simpa using h), if_neg h]

lemma lookupGroup_groupAppend (fc key v : Char) :
    ∀ acc : List (Char × List Char),
      lookupGroup fc (groupAppend key v acc) =
        if key = fc then lookupGroup fc acc ++ [v] else lookupGroup fc acc := by
  intro acc
  induction acc with
  | nil =>
    show lookupGroup fc [(key, [v])] = _
    rw [lookupGroup_cons]
    by_cases h : key = fc
    · rw [if_pos h, if_pos h]
      simp [lookupGroup]
    · rw [if_neg h, if_neg h]
  | cons g rest ih =>
    obtain ⟨k, vs⟩ := g
    by_cases hk : k = key
    · subst hk
      have hg : groupAppend k v ((k, vs) :: rest) = (k, vs ++ [v]) :: rest := by
        simp [groupAppend]
      rw [hg, lookupGroup_cons, lookupGroup_cons]
      by_cases hfc : k = fc
      · simp only [if_pos hfc]
      · simp only [if_neg hfc]
    · have hg : groupAppend key v ((k, vs) :: rest) = (k, vs) :: groupAppend key v rest := by
        simp [groupAppend, hk]
      rw [hg, lookupGroup_cons, ih, lookupGroup_cons]
      by_cases hfc : k = fc
      · simp only [if_pos hfc, if_neg (show ¬ key = fc from fun h => hk (hfc.trans h.symm))]
      · simp only [if_neg hfc]

/-- The fold that builds a group dict, with an explicit accumulator. -/
def buildGroupsAux (kind : Char) (l : List Str) (acc : List (Char × List Char)) :
    List (Char × List Char) :=
  l.foldl (fun acc h =>
    if h.length ≠ 2 ∧ h.getLastD ' ' = kind then
      groupAppend (h.getD 0 ' ') (h.getD 1 ' ') acc
    else acc) acc

lemma buildGroups_eq_aux (kind : Char) (l : List Str) :
    buildGroups kind l = buildGroupsAux kind l [] := rfl

lemma buildGroupsAux_cons_pos (kind : Char) {h : Str} (t : List Str)
    (acc : List (Char × List Char)) (hcond : h.length ≠ 2 ∧ h.getLastD ' ' = kind) :
    buildGroupsAux kind (h :: t) acc =
      buildGroupsAux kind t (groupAppend (h.getD 0 ' ') (h.getD 1 ' ') acc) := by
  simp only [buildGroupsAux, List.foldl_cons, if_pos hcond]

lemma buildGroupsAux_cons_neg (kind : Char) {h : Str} (t : List Str)
    (acc : List (Char × List Char)) (hcond : ¬(h.length ≠ 2 ∧ h.getLastD ' ' = kind)) :
    buildGroupsAux kind (h :: t) acc = buildGroupsAux kind t acc := by
  simp only [buildGroupsAux, List.foldl_cons, if_neg hcond]

lemma groupSeconds_cons_pos {kind fc : Char} {h : Str} (t : List Str)
    (hcond : h.length ≠ 2 ∧ h.getLastD ' ' = kind) (hfc : h.getD 0 ' ' = fc) :
    groupSeconds kind fc (h :: t) = h.getD 1 ' ' :: groupSeconds kind fc t := by
  unfold groupSeconds
  rw [List.filter_cons_of_pos (by
    rw [decide_eq_true_eq]
    exact ⟨hcond.1, hcond.2, hfc⟩)]
  simp

lemma groupSeconds_cons_neg {kind fc : Char} {h : Str} (t : List Str)
    (hcond : ¬(h.length ≠ 2 ∧ h.getLastD ' ' = kind ∧ h.getD 0 ' ' = fc)) :
    groupSeconds kind fc (h :: t) = groupSeconds kind fc t := by
  unfold groupSeconds
  rw [List.filter_cons_of_neg (by
    simp only [decide_eq_true_eq]
    exact hcond)]

lemma lookupGroup_buildGroupsAux (kind fc : Char) :
    ∀ (l : List Str) (acc : List (Char × List Char)),
      lookupGroup fc (buildGroupsAux kind l acc) =
        lookupGroup fc acc ++ groupSeconds kind fc l := by
  intro l
  induction l with
  | nil => intro acc; simp [buildGroupsAux, groupSeconds]
  | cons h t ih =>
    intro acc
    by_cases hcond : h.length ≠ 2 ∧ h.getLastD ' ' = kind
    · rw [buildGroupsAux_cons_pos kind t acc hcond, ih, lookupGroup_groupAppend]
      by_cases hfc : h.getD 0 ' ' = fc
      · rw [if_pos hfc, groupSeconds_cons_pos t hcond hfc]
        simp
      · rw [if_neg hfc, groupSeconds_cons_neg t (fun hcon => hfc hcon.2.2)]
    · rw [buildGroupsAux_cons_neg kind t acc hcond, ih,
        groupSeconds_cons_neg t (fun hcon => hcond ⟨hcon.1, hcon.2.1⟩)]

lemma lookupGroup_buildGroups (kind fc : Char) (l : List Str) :
    lookupGroup fc (buildGroups kind l) = groupSeconds kind fc l := by
  rw [buildGroups_eq_aux, lookupGroup_buildGroupsAux]
  simp [lookupGroup]

lemma mem_keys_groupAppend (c key v : Char) :
    ∀ acc : List (Char × List Char),
      c ∈ (groupAppend key v acc).map Prod.fst ↔ c = key ∨ c ∈ acc.map Prod.fst := by
  intro acc
  induction acc with
  | nil => simp [groupAppend]
  | cons g rest ih =>
    obtain ⟨k, vs⟩ := g
    by_cases hk : k = key
    · subst hk
      have hg : groupAppend k v ((k, vs) :: rest) = (k, vs ++ [v]) :: rest := by
        simp [groupAppend]
      rw [hg]
      simp only [List.map_cons, List.mem_cons]
      tauto
    · have hg : groupAppend key v ((k, vs) :: rest) = (k, vs) :: groupAppend key v rest := by
        simp [groupAppend, hk]
      rw [hg]
      simp only [List.map_cons, List.mem_cons, ih]
      tauto

lemma mem_keys_buildGroupsAux (kind c : Char) :
    ∀ (l : List Str) (acc : List (Char × List Char)),
      c ∈ (buildGroupsAux kind l acc).map Prod.fst ↔
        c ∈ acc.map Prod.fst ∨ groupSeconds kind c l ≠ [] := by
  intro l
  induction l with
  | nil => intro acc; simp [buildGroupsAux, groupSeconds]
  | cons h t ih =>
    intro acc
    by_cases hcond : h.length ≠ 2 ∧ h.getLastD ' ' = kind
    · rw [buildGroupsAux_cons_pos kind t acc hcond, ih, mem_keys_groupAppend]
      by_cases hfc : h.getD 0 ' ' = c
      · rw [groupSeconds_cons_pos t hcond hfc]
        exact iff_of_true (Or.inl (Or.inl hfc.symm)) (Or.inr (by simp))
      · rw [groupSeconds_cons_neg t (fun hcon => hfc hcon.2.2)]
        constructor
        · rintro ((rfl | hc) | hne)
          · exact absurd rfl hfc
          · exact Or.inl hc
          · exact Or.inr hne
        · rintro (hc | hne)
          · exact Or.inl (Or.inr hc)
          · exact Or.inr hne
    · rw [buildGroupsAux_cons_neg kind t acc hcond, ih,
        groupSeconds_cons_neg t (fun hcon => hcond ⟨hcon.1, hcon.2.1⟩)]

/-- In a built dict, a key is present exactly when its group is nonempty. -/
lemma mem_keys_buildGroups (kind fc : Char) (l : List Str) :
    fc ∈ (buildGroups kind l).map Prod.fst ↔ groupSeconds kind fc l ≠ [] := by
  rw [buildGroups_eq_aux, mem_keys_buildGroupsAux]
  simp

/-! ### Shapes of canonical hands and group soundness -/

lemma shape_of_mem_2 {h : Str} (hm : h ∈ get_all_hands) (hlen : h.length = 2) :
    ∃ a, a ∈ RANKS ∧ h = [a, a] := by
  rw [mem_get_all_hands_iff] at hm
  rcases hm with ⟨i, hi, rfl⟩ | ⟨i, j, _, _, rfl | rfl⟩
  · exact ⟨_, getD_mem_ranks i hi, rfl⟩
  · simp at hlen
  · simp at hlen

lemma shape_of_mem_3 {h : Str} (hm : h ∈ get_all_hands) (hlen : h.length ≠ 2) :
    ∃ a b k, a ∈ RANKS ∧ b ∈ RANKS ∧ (k = 's' ∨ k = 'o') ∧ rankIdx a < rankIdx b ∧
      h = [a, b, k] := by
  rw [mem_get_all_hands_iff] at hm
  rcases hm with ⟨i, hi, rfl⟩ | ⟨i, j, hij, hj, rfl | rfl⟩
  · simp at hlen
  · exact ⟨_, _, 's', getD_mem_ranks i (by omega), getD_mem_ranks j hj, Or.inl rfl,
      by rw [rankIdx_getD i (by omega), rankIdx_getD j hj]; exact hij, rfl⟩
  · exact ⟨_, _, 'o', getD_mem_ranks i (by omega), getD_mem_ranks j hj, Or.inr rfl,
      by rw [rankIdx_getD i (by omega), rankIdx_getD j hj]; exact hij, rfl⟩

lemma so_chars_of_mem {fc sc k : Char} (hm : [fc, sc, k] ∈ get_all_hands) :
    fc ∈ RANKS ∧ sc ∈ RANKS ∧ (k = 's' ∨ k = 'o') ∧ rankIdx fc < rankIdx sc := by
  obtain ⟨a, b, kk, ha, hb, hkk, hab, heq⟩ := shape_of_mem_3 hm (by simp)
  simp only [List.cons.injEq, and_true] at heq
  obtain ⟨rfl, rfl, rfl⟩ := heq
  exact ⟨ha, hb, hkk, hab⟩

lemma headD_mem {l : List Char} (h : l ≠ []) (d : Char) : l.headD d ∈ l := by
  cases l with
  | nil => exact absurd rfl h
  | cons c t => simp

lemma getLastD_mem : ∀ {l : List Char}, l ≠ [] → ∀ d : Char, l.getLastD d ∈ l
  | [], h, _ => absurd rfl h
  | [c], _, d => by simp [List.getLastD]
  | c :: c' :: t, _, d => by
    rw [List.getLastD_cons]
    exact List.mem_cons_of_mem c (getLastD_mem (by simp) c)

/-- Membership in a group's second cards. -/
lemma mem_groupSeconds {kind fc sc : Char} {l : List Str} :
    sc ∈ groupSeconds kind fc l ↔
      ∃ h ∈ l, h.length ≠ 2 ∧ h.getLastD ' ' = kind ∧ h.getD 0 ' ' = fc ∧
        h.getD 1 ' ' = sc := by
  unfold groupSeconds
  simp only [List.mem_map, List.mem_filter, decide_eq_true_eq]
  constructor
  · rintro ⟨h, ⟨hl, hc⟩, rfl⟩
    exact ⟨h, hl, hc.1, hc.2.1, hc.2.2, rfl⟩
  · rintro ⟨h, hl, h1, h2, h3, h4⟩
    exact ⟨h, ⟨hl, h1, h2, h3⟩, h4⟩

/-- Soundness of one suited/offsuit group's tokens. -/
lemma format_so_group_sound (k fc : Char) (hk : k = 's' ∨ k = 'o') (hfc : fc ∈ RANKS)
    (seconds : List Char)
    (hsub : ∀ sc ∈ seconds, [fc, sc, k] ∈ get_all_hands)
    (hsorted : SortedRank seconds)
    (hcont : 2 < seconds.length →
      ∀ b ∈ seconds, ∀ c ∈ seconds, ∀ j, j < 13 → rankIdx b ≤ j → j ≤ rankIdx c →
        RANKS.getD j 'A' ∈ seconds) :
    (∀ x, (∃ t ∈ format_so_group k fc seconds, x ∈ parse_range_token get_all_hands ∅ t) ↔
      ∃ sc ∈ seconds, x = [fc, sc, k]) ∧
    (∀ t ∈ format_so_group k fc seconds, EmittedToken t) := by
  by_cases hlen : 2 < seconds.length
  · have hne : seconds ≠ [] := by
      intro hcon; rw [hcon] at hlen; simp at hlen
    have hhead := headD_mem hne 'A'
    have hlast := getLastD_mem hne 'A'
    have hheadR := (so_chars_of_mem (hsub _ hhead)).2.1
    have hlastR := (so_chars_of_mem (hsub _ hlast)).2.1
    have hminmax : rankIdx (seconds.headD 'A') ≤ rankIdx (seconds.getLastD 'A') :=
      sortedRank_headD_le hsorted _ hlast
    have htok : format_so_group k fc seconds =
        [[fc, seconds.getLastD 'A', k, '-', fc, seconds.headD 'A', k]] := by
      unfold format_so_group
      rw [if_pos hlen]
    constructor
    · intro x
      rw [htok]
      simp only [List.mem_singleton]
      constructor
      · rintro ⟨t, rfl, hx⟩
        rw [parse_token_dashed_so ∅ hfc hlastR hfc hheadR hk hk,
          mem_parse_dashed_combo_range_same ∅ hlastR hheadR x] at hx
        rcases hx with hx | ⟨i, hi1, hi2, hmem, rfl⟩
        · simp at hx
        · rw [min_comm, min_eq_left hminmax] at hi1
          rw [max_comm, max_eq_right hminmax] at hi2
          have hiR : i < 13 := by
            have := rankIdx_lt_of_mem _ hlastR
            omega
          have : RANKS.getD i 'A' ∈ seconds :=
            hcont hlen _ hhead _ hlast i hiR hi1 hi2
          exact ⟨RANKS.getD i 'A', this, rfl⟩
      · rintro ⟨sc, hsc, rfl⟩
        have hscR := (so_chars_of_mem (hsub _ hsc)).2.1
        refine ⟨_, rfl, ?_⟩
        rw [parse_token_dashed_so ∅ hfc hlastR hfc hheadR hk hk,
          mem_parse_dashed_combo_range_same ∅ hlastR hheadR]
        refine Or.inr ⟨rankIdx sc, ?_, ?_, ?_, ?_⟩
        · rw [min_comm, min_eq_left hminmax]
          exact sortedRank_headD_le hsorted _ hsc
        · rw [max_comm, max_eq_right hminmax]
          exact sortedRank_le_getLastD hsorted _ hsc
        · rw [ranks_getD_rankIdx _ hscR]
          exact hsub _ hsc
        · rw [ranks_getD_rankIdx _ hscR]
    · intro t ht
      rw [htok] at ht
      simp only [List.mem_singleton] at ht
      subst ht
      exact Or.inr (Or.inr (Or.inr ⟨fc, seconds.getLastD 'A', seconds.headD 'A', k,
        hfc, hlastR, hheadR, hk, rfl⟩))
  · have htok : format_so_group k fc seconds =
        seconds.reverse.map (fun sc => [fc, sc, k]) := by
      unfold format_so_group
      rw [if_neg hlen]
    constructor
    · intro x
      rw [htok]
      constructor
      · rintro ⟨t, ht, hx⟩
        rw [List.mem_map] at ht
        obtain ⟨sc, hsc, rfl⟩ := ht
        rw [List.mem_reverse] at hsc
        have hscR := (so_chars_of_mem (hsub _ hsc)).2.1
        rw [parse_token_so_mem ∅ hfc hscR hk (hsub _ hsc)] at hx
        simp only [Finset.mem_insert, Finset.not_mem_empty, or_false] at hx
        exact ⟨sc, hsc, hx⟩
      · rintro ⟨sc, hsc, rfl⟩
        have hscR := (so_chars_of_mem (hsub _ hsc)).2.1
        refine ⟨[fc, sc, k], ?_, ?_⟩
        · rw [List.mem_map]
          exact ⟨sc, List.mem_reverse.2 hsc, rfl⟩
        · rw [parse_token_so_mem ∅ hfc hscR hk (hsub _ hsc)]
          exact Finset.mem_insert_self _ _
    · intro t ht
      rw [htok, List.mem_map] at ht
      obtain ⟨sc, hsc, rfl⟩ := ht
      rw [List.mem_reverse] at hsc
      have hscR := (so_chars_of_mem (hsub _ hsc)).2.1
      exact Or.inr (Or.inr (Or.inl ⟨fc, sc, k, hfc, hscR, hk, hsub _ hsc, rfl⟩))

lemma groupSeconds_hand {k fc sc : Char} {l : List Str}
    (hsub : ∀ h ∈ l, h ∈ get_all_hands) (hsc : sc ∈ groupSeconds k fc l) :
    [fc, sc, k] ∈ l ∧ [fc, sc, k] ∈ get_all_hands := by
  obtain ⟨h, hl, hlen, hlast, h0, h1⟩ := mem_groupSeconds.1 hsc
  obtain ⟨a, b, kk, ha, hb, hkk, hab, rfl⟩ := shape_of_mem_3 (hsub h hl) hlen
  have ha' : a = fc := by simpa using h0
  have hb' : b = sc := by simpa using h1
  have hk' : kk = k := by simpa [List.getLastD] using hlast
  subst ha'
  subst hb'
  subst hk'
  exact ⟨hl, hsub _ hl⟩

/-- Soundness of the tokens of one key of a suited/offsuit section. -/
lemma format_so_group_key_sound (k : Char) (hk : k = 's' ∨ k = 'o') (l : List Str)
    (hsub : ∀ h ∈ l, h ∈ get_all_hands)
    (hcont : ∀ fc, 2 < (groupSeconds k fc l).length →
      ∀ b ∈ groupSeconds k fc l, ∀ c ∈ groupSeconds k fc l, ∀ j, j < 13 →
        rankIdx b ≤ j → j ≤ rankIdx c → RANKS.getD j 'A' ∈ groupSeconds k fc l)
    (fc : Char) (hne : groupSeconds k fc l ≠ []) :
    (∀ x, (∃ t ∈ format_so_group k fc (sortBy rankLe (groupSeconds k fc l)),
        x ∈ parse_range_token get_all_hands ∅ t) ↔
      ∃ sc ∈ groupSeconds k fc l, x = [fc, sc, k]) ∧
    (∀ t ∈ format_so_group k fc (sortBy rankLe (groupSeconds k fc l)), EmittedToken t) := by
  obtain ⟨sc0, hsc0⟩ := List.exists_mem_of_ne_nil _ hne
  have hfc : fc ∈ RANKS := (so_chars_of_mem (groupSeconds_hand hsub hsc0).2).1
  have hperm := sortBy_perm rankLe (groupSeconds k fc l)
  have hgs := format_so_group_sound k fc hk hfc (sortBy rankLe (groupSeconds k fc l))
    (fun sc hsc => (groupSeconds_hand hsub (hperm.mem_iff.1 hsc)).2)
    (sortBy_rank_sorted _)
    (by
      intro hlen b hb c hc j hj hbj hjc
      rw [hperm.mem_iff]
      rw [hperm.length_eq] at hlen
      exact hcont fc hlen b (hperm.mem_iff.1 hb) c (hperm.mem_iff.1 hc) j hj hbj hjc)
  constructor
  · intro x
    rw [hgs.1 x]
    constructor
    · rintro ⟨sc, hsc, rfl⟩
      exact ⟨sc, hperm.mem_iff.1 hsc, rfl⟩
    · rintro ⟨sc, hsc, rfl⟩
      exact ⟨sc, hperm.mem_iff.2 hsc, rfl⟩
  · exact hgs.2

/-- Soundness of a whole suited/offsuit section of `format_range_to_text`. -/
lemma format_so_section_sound (k : Char) (hk : k = 's' ∨ k = 'o') (l : List Str)
    (hsub : ∀ h ∈ l, h ∈ get_all_hands)
    (hcont : ∀ fc, 2 < (groupSeconds k fc l).length →
      ∀ b ∈ groupSeconds k fc l, ∀ c ∈ groupSeconds k fc l, ∀ j, j < 13 →
        rankIdx b ≤ j → j ≤ rankIdx c → RANKS.getD j 'A' ∈ groupSeconds k fc l) :
    (∀ x, (∃ t ∈ format_so_section k (buildGroups k l),
        x ∈ parse_range_token get_all_hands ∅ t) ↔
      ∃ h ∈ l, h.length ≠ 2 ∧ h.getLastD ' ' = k ∧ x = h) ∧
    (∀ t ∈ format_so_section k (buildGroups k l), EmittedToken t) := by
  have hkeys : ∀ fc : Char,
      fc ∈ sortBy charLe ((buildGroups k l).map Prod.fst) ↔ groupSeconds k fc l ≠ [] := by
    intro fc
    rw [(sortBy_perm charLe _).mem_iff, mem_keys_buildGroups]
  have hlookup : ∀ fc : Char, lookupGroup fc (buildGroups k l) = groupSeconds k fc l :=
    fun fc => lookupGroup_buildGroups k fc l
  constructor
  · intro x
    constructor
    · rintro ⟨t, ht, hx⟩
      rw [format_so_section, List.mem_flatMap] at ht
      obtain ⟨fc, hfcK, htg⟩ := ht
      have hne := (hkeys fc).1 hfcK
      rw [hlookup fc] at htg
      obtain ⟨sc, hsc, rfl⟩ :=
        ((format_so_group_key_sound k hk l hsub hcont fc hne).1 x).1 ⟨t, htg, hx⟩
      obtain ⟨hl, _⟩ := groupSeconds_hand hsub hsc
      exact ⟨[fc, sc, k], hl, by simp, by simp [List.getLastD], rfl⟩
    · rintro ⟨h, hl, hlen, hlast, heq⟩
      subst heq
      obtain ⟨a, b, kk, ha, hb, hkk, hab, rfl⟩ := shape_of_mem_3 (hsub x hl) hlen
      have hkind : kk = k := by simpa [List.getLastD] using hlast
      subst hkind
      have hbsec : b ∈ groupSeconds kk a l :=
        mem_groupSeconds.2 ⟨[a, b, kk], hl, by simp, by simp [List.getLastD], by simp, by simp⟩
      have hne : groupSeconds kk a l ≠ [] := fun hcon => by
        rw [hcon] at hbsec; simp at hbsec
      obtain ⟨t, htg, hx⟩ :=
        ((format_so_group_key_sound kk hk l hsub hcont a hne).1 [a, b, kk]).2 ⟨b, hbsec, rfl⟩
      refine ⟨t, ?_, hx⟩
      rw [format_so_section, List.mem_flatMap]
      refine ⟨a, (hkeys a).2 hne, ?_⟩
      rw [hlookup a]
      exact htg
  · intro t ht
    rw [format_so_section, List.mem_flatMap] at ht
    obtain ⟨fc, hfcK, htg⟩ := ht
    have hne := (hkeys fc).1 hfcK
    rw [hlookup fc] at htg
    exact (format_so_group_key_sound k hk l hsub hcont fc hne).2 t htg

/-- The condition the counterexample forces: every suited/offsuit group of
more than two members has rank-contiguous secondary ranks (groups of at most
two members are emitted as exact tokens and need no condition). -/
def GroupsContiguous (S : List Str) : Prop :=
  ∀ kind ∈ (['s', 'o'] : List Char), ∀ fc ∈ RANKS,
    2 < (groupSeconds kind fc S).length →
    ∀ b ∈ groupSeconds kind fc S, ∀ c ∈ groupSeconds kind fc S,
      ∀ j ∈ List.range 13, rankIdx b ≤ j → j ≤ rankIdx c →
        RANKS.getD j 'A' ∈ groupSeconds kind fc S

lemma groupSeconds_perm {k fc : Char} {l l' : List Str} (hp : l.Perm l') :
    (groupSeconds k fc l).Perm (groupSeconds k fc l') :=
  (hp.filter _).map _

/-- Claim C1 (amended): the round-trip `parse ∘ format` is the identity on
every set of canonical classes whose suited and offsuit groups of more than
two members are rank-contiguous. -/
theorem C1_round_trip_amended (S : List Str) (hnd : S.Nodup)
    (hsub : ∀ h ∈ S, h ∈ get_all_hands) (hcont : GroupsContiguous S) :
    parse_range_text (format_range_to_text S) = S.toFinset := by
  rcases eq_or_ne S [] with rfl | hSne
  · rfl
  · have hperm : (sortBy lexLe S).Perm S := sortBy_perm lexLe S
    set L := sortBy lexLe S with hLdef
    have hLsub : ∀ h ∈ L, h ∈ get_all_hands := fun h hh => hsub h (hperm.mem_iff.1 hh)
    set pairsChars := (L.filter (fun h => h.length = 2)).map (fun h => h.getD 0 ' ')
      with hPCdef
    have hpc : ∀ c ∈ pairsChars, c ∈ RANKS := by
      intro c hc
      rw [hPCdef, List.mem_map] at hc
      obtain ⟨h, hh, rfl⟩ := hc
      rw [List.mem_filter] at hh
      obtain ⟨a, ha, rfl⟩ := shape_of_mem_2 (hLsub h hh.1) (by simpa using hh.2)
      simpa using ha
    have hsecCont : ∀ k, (k = 's' ∨ k = 'o') →
        ∀ fc, 2 < (groupSeconds k fc L).length →
        ∀ b ∈ groupSeconds k fc L, ∀ c ∈ groupSeconds k fc L, ∀ j, j < 13 →
          rankIdx b ≤ j → j ≤ rankIdx c → RANKS.getD j 'A' ∈ groupSeconds k fc L := by
      intro k hk fc hlen b hb c hc j hj hbj hjc
      have hg := @groupSeconds_perm k fc _ _ hperm
      have hfcR : fc ∈ RANKS := (so_chars_of_mem (groupSeconds_hand hLsub hb).2).1
      rw [hg.mem_iff]
      refine hcont k (by rcases hk with rfl | rfl <;> simp) fc hfcR ?_
        b (hg.mem_iff.1 hb) c (hg.mem_iff.1 hc) j (by simpa using hj) hbj hjc
      rw [← hg.length_eq]
      exact hlen
    have hpairs := format_pairs_sound pairsChars hpc
    have hsec_s := format_so_section_sound 's' (Or.inl rfl) L hLsub
      (hsecCont 's' (Or.inl rfl))
    have hsec_o := format_so_section_sound 'o' (Or.inr rfl) L hLsub
      (hsecCont 'o' (Or.inr rfl))
    have htoks : format_tokens L =
        format_pairs pairsChars ++
          (format_so_section 's' (buildGroups 's' L) ++
           format_so_section 'o' (buildGroups 'o' L)) := by
      rw [format_tokens, List.append_assoc]
    have htoksEmitted : ∀ t ∈ format_tokens L, EmittedToken t := by
      intro t ht
      rw [htoks] at ht
      rcases List.mem_append.1 ht with ht' | ht'
      · exact hpairs.2 t ht'
      · rcases List.mem_append.1 ht' with ht'' | ht''
        · exact hsec_s.2 t ht''
        · exact hsec_o.2 t ht''
    have hclassify : ∀ x ∈ L,
        (∃ c ∈ pairsChars, x = [c, c]) ∨
        (∃ h ∈ L, h.length ≠ 2 ∧ h.getLastD ' ' = 's' ∧ x = h) ∨
        (∃ h ∈ L, h.length ≠ 2 ∧ h.getLastD ' ' = 'o' ∧ x = h) := by
      intro x hx
      by_cases hlen : x.length = 2
      · obtain ⟨a, ha, rfl⟩ := shape_of_mem_2 (hLsub x hx) hlen
        refine Or.inl ⟨a, ?_, rfl⟩
        rw [hPCdef, List.mem_map]
        exact ⟨[a, a], List.mem_filter.2 ⟨hx, by simp⟩, by simp⟩
      · obtain ⟨a, b, kk, ha, hb, hkk, hab, rfl⟩ := shape_of_mem_3 (hLsub x hx) hlen
        rcases hkk with rfl | rfl
        · exact Or.inr (Or.inl ⟨_, hx, by simp, by simp [List.getLastD], rfl⟩)
        · exact Or.inr (Or.inr ⟨_, hx, by simp, by simp [List.getLastD], rfl⟩)
    have hne : format_tokens L ≠ [] := by
      obtain ⟨h0, hh0⟩ := List.exists_mem_of_ne_nil S hSne
      have hh0L : h0 ∈ L := hperm.mem_iff.2 hh0
      rcases hclassify h0 hh0L with ⟨c, hc, heq⟩ | ⟨h, hh, h1, h2, heq⟩ | ⟨h, hh, h1, h2, heq⟩
      · obtain ⟨t, ht, -⟩ := (hpairs.1 h0).2 ⟨c, hc, heq⟩
        intro hcon
        rw [htoks] at hcon
        have : t ∈ format_tokens L := by
          rw [htoks]
          exact List.mem_append.2 (Or.inl ht)
        rw [htoks, hcon] at this
        simp at this
      · obtain ⟨t, ht, -⟩ := (hsec_s.1 h0).2 ⟨h, hh, h1, h2, heq⟩
        intro hcon
        have : t ∈ format_tokens L := by
          rw [htoks]
          exact List.mem_append.2 (Or.inr (List.mem_append.2 (Or.inl ht)))
        rw [hcon] at this
        simp at this
      · obtain ⟨t, ht, -⟩ := (hsec_o.1 h0).2 ⟨h, hh, h1, h2, heq⟩
        intro hcon
        have : t ∈ format_tokens L := by
          rw [htoks]
          exact List.mem_append.2 (Or.inr (List.mem_append.2 (Or.inr ht)))
        rw [hcon] at this
        simp at this
    have hformat : format_range_to_text S = joinComma (format_tokens L) := by
      rw [format_range_to_text, if_neg hSne]
    rw [hformat,
      parse_range_text_joinComma hne (fun t ht => emitted_clean (htoksEmitted t ht))]
    apply Finset.ext
    intro x
    rw [fold_union (format_tokens L) (fun t ht => emitted_additive (htoksEmitted t ht)) ∅ x]
    simp only [Finset.not_mem_empty, false_or]
    rw [List.mem_toFinset]
    constructor
    · rintro ⟨t, ht, hx⟩
      rw [htoks] at ht
      rcases List.mem_append.1 ht with ht' | ht'
      · obtain ⟨c, hc, rfl⟩ := (hpairs.1 x).1 ⟨t, ht', hx⟩
        rw [hPCdef, List.mem_map] at hc
        obtain ⟨h, hh, rfl⟩ := hc
        rw [List.mem_filter] at hh
        obtain ⟨a, ha, rfl⟩ := shape_of_mem_2 (hLsub h hh.1) (by simpa using hh.2)
        exact hperm.mem_iff.1 (by simpa using hh.1)
      · rcases List.mem_append.1 ht' with ht'' | ht''
        · obtain ⟨h, hh, -, -, rfl⟩ := (hsec_s.1 x).1 ⟨t, ht'', hx⟩
          exact hperm.mem_iff.1 hh
        · obtain ⟨h, hh, -, -, rfl⟩ := (hsec_o.1 x).1 ⟨t, ht'', hx⟩
          exact hperm.mem_iff.1 hh
    · intro hxS
      have hxL : x ∈ L := hperm.mem_iff.2 hxS
      rcases hclassify x hxL with hcase | hcase | hcase
      · obtain ⟨t, ht, hx⟩ := (hpairs.1 x).2 hcase
        refine ⟨t, ?_, hx⟩
        rw [htoks]
        exact List.mem_append.2 (Or.inl ht)
      · obtain ⟨t, ht, hx⟩ := (hsec_s.1 x).2 hcase
        refine ⟨t, ?_, hx⟩
        rw [htoks]
        exact List.mem_append.2 (Or.inr (List.mem_append.2 (Or.inl ht)))
      · obtain ⟨t, ht, hx⟩ := (hsec_o.1 x).2 hcase
        refine ⟨t, ?_, hx⟩
        rw [htoks]
        exact List.mem_append.2 (Or.inr (List.mem_append.2 (Or.inr ht)))

/-- Witness for the amended C1 on a concrete mixed set: pairs {AA, KK},
a contiguous three-member suited group {A2s, A3s, A4s} and one offsuit hand. -/
theorem C1_amended_witness :
    parse_range_text (format_range_to_text
      [strOf "AA", strOf "KK", strOf "A2s", strOf "A3s", strOf "A4s", strOf "KQo"]) =
      ([strOf "AA", strOf "KK", strOf "A2s", strOf "A3s", strOf "A4s",
        strOf "KQo"] : List Str).toFinset :=
  C1_round_trip_amended _ (by decide) (by decide) (by unfold GroupsContiguous; decide)

/-! ### Push/fold CSV table (`parse_push_fold_csv`, `get_push_fold_advice`)

The CSV text is modelled after `csv.DictReader`: the first line gives the
field names, each later line is a list of cell strings; a non-blank row
shorter than the header has its missing cells filled with `None` (`restval`),
and a cell access distinguishes "column absent from the header" (Python's
`row.get(col, '')` default) from "column present but unfilled" (`None`).
Python's `float()` is external; it is passed in as `toFloat`. -/

/-- The expected position columns (also the valid positions accepted by
`get_push_fold_advice`). -/
def expected_pos_headers : List Str :=
  (["SB", "B", "CO", "HJ", "LJ", "UTG+3", "UTG+2", "UTG+1", "UTG"] : List String).map strOf

/-- `row.get(col, '')` under `DictReader` semantics: `none` when the column
is not a field name, `some none` when the row was too short to fill it, and
`some (some v)` for a real cell (a duplicated field name keeps the last
zipped value, as `dict(zip(...))` does). -/
def lookupCell (headers row : List Str) (col : Str) : Option (Option Str) :=
  (((headers.zip (row.map some ++ List.replicate (headers.length - row.length) none)).filter
    (fun p => p.1 = col)).getLast?).map Prod.snd

/-- Python `dict` assignment `d[k] = v`: replace in place or append. -/
def dictInsert {α β : Type} [DecidableEq α] : List (α × β) → α → β → List (α × β)
  | [], k, v => [(k, v)]
  | (k', v') :: rest, k, v =>
    if k' = k then (k', v) :: rest else (k', v') :: dictInsert rest k v

/-- The `for col in expected_pos_headers` cell loop of `parse_push_fold_csv`:
`none` models the uncaught `AttributeError` from `None.strip()` on an
unfilled cell; empty and unparseable cells are skipped. -/
def cells_loop (toFloat : Str → Option ℚ) (headers row : List Str) :
    List Str → List (Str × ℚ) → Option (List (Str × ℚ))
  | [], subdict => some subdict
  | col :: rest, subdict =>
    match lookupCell headers row col with
    | none => cells_loop toFloat headers row rest subdict
    | some none => none
    | some (some v) =>
      let val_str := stripStr v
      if val_str = [] then cells_loop toFloat headers row rest subdict
      else
        match toFloat val_str with
        | some f => cells_loop toFloat headers row rest (dictInsert subdict col f)
        | none => cells_loop toFloat headers row rest subdict

/-- One row of `parse_push_fold_csv`: `none` = exception (caught by the
enclosing `except`, failing the whole load), `some none` = row skipped,
`some (some entry)` = a table entry. -/
def process_row (toFloat : Str → Option ℚ) (headers row : List Str) :
    Option (Option (ℚ × List (Str × ℚ))) :=
  match lookupCell headers row (strOf "Stack") with
  | none => some none
  | some none => none
  | some (some v) =>
    let stack_str := stripStr v
    if stack_str = [] then some none
    else
      match toFloat stack_str with
      | none => some none
      | some stack_val =>
        match cells_loop toFloat headers row expected_pos_headers [] with
        | none => none
        | some subdict => some (some (stack_val, subdict))

/-- The row loop; blank rows are skipped by `DictReader` itself. -/
def rows_loop (toFloat : Str → Option ℚ) (headers : List Str) :
    List (List Str) → List (ℚ × List (Str × ℚ)) → Option (List (ℚ × List (Str × ℚ)))
  | [], ranges => some ranges
  | row :: rest, ranges =>
    if row = [] then rows_loop toFloat headers rest ranges
    else
      match process_row toFloat headers row with
      | none => none
      | some none => rows_loop toFloat headers rest ranges
      | some (some (k, sub)) => rows_loop toFloat headers rest (dictInsert ranges k sub)

/-- `parse_push_fold_csv` from `poker_logic.py`: a missing `Stack` header or
any exception yields the empty table. -/
def parse_push_fold_csv (toFloat : Str → Option ℚ) (headers : List Str)
    (rows : List (List Str)) : List (ℚ × List (Str × ℚ)) :=
  if headers = [] ∨ strOf "Stack" ∉ headers then []
  else
    match rows_loop toFloat headers rows [] with
    | none => []
    | some ranges => ranges

/-- The value a well-formed cell contributes, if any. -/
def goodCell (toFloat : Str → Option ℚ) (headers row : List Str) (col : Str) :
    Option (Str × ℚ) :=
  match lookupCell headers row col with
  | some (some v) =>
    if stripStr v = [] then none
    else
      match toFloat (stripStr v) with
      | some f => some (col, f)
      | none => none
  | _ => none

/-- A simple concrete stand-in for `float()` on nonnegative integer strings,
used to instantiate counterexamples and witnesses. -/
def natFloat (s : Str) : Option ℚ :=
  if s ≠ [] ∧ s.all Char.isDigit then
    some ((s.foldl (fun n c => n * 10 + (c.toNat - 48)) 0 : ℕ) : ℚ)
  else none

lemma dictInsert_of_fresh {β : Type} :
    ∀ (d : List (Str × β)) (k : Str) (v : β), (∀ p ∈ d, p.1 ≠ k) →
      dictInsert d k v = d ++ [(k, v)]
  | [], _, _, _ => rfl
  | (k', v') :: rest, k, v, hf => by
    have hk' : k' ≠ k := hf (k', v') (by simp)
    show (if k' = k then _ else _) = _
    rw [if_neg hk', dictInsert_of_fresh rest k v (fun p hp => hf p (by simp [hp]))]
    simp

/-- When no scanned cell is an unfilled `restval`, the cell loop succeeds and
collects exactly the parseable cells, leaving malformed ones out. -/
lemma cells_loop_eq (toFloat : Str → Option ℚ) (headers row : List Str) :
    ∀ (cols : List Str) (acc : List (Str × ℚ)),
      (∀ col ∈ cols, lookupCell headers row col ≠ some none) →
      (∀ col ∈ cols, ∀ p ∈ acc, p.1 ≠ col) →
      cols.Nodup →
      cells_loop toFloat headers row cols acc =
        some (acc ++ cols.filterMap (goodCell toFloat headers row)) := by
  intro cols
  induction cols with
  | nil => intro acc _ _ _; simp [cells_loop]
  | cons col rest ih =>
    intro acc hnc hfresh hnd
    have hndr := (List.nodup_cons.1 hnd).2
    have hcr : col ∉ rest := (List.nodup_cons.1 hnd).1
    rcases hluc : lookupCell headers row col with _ | hv
    · have : cells_loop toFloat headers row (col :: rest) acc =
          cells_loop toFloat headers row rest acc := by
        simp only [cells_loop, hluc]
      rw [this, ih acc (fun c hc => hnc c (by simp [hc]))
        (fun c hc p hp => hfresh c (by simp [hc]) p hp) hndr]
      have : goodCell toFloat headers row col = none := by
        simp [goodCell, hluc]
      rw [List.filterMap_cons, this]
    · rcases hv with _ | v
      · exact absurd hluc (hnc col (by simp))
      · by_cases hstrip : stripStr v = []
        · have : cells_loop toFloat headers row (col :: rest) acc =
              cells_loop toFloat headers row rest acc := by
            simp only [cells_loop, hluc, if_pos hstrip]
          rw [this, ih acc (fun c hc => hnc c (by simp [hc]))
            (fun c hc p hp => hfresh c (by simp [hc]) p hp) hndr]
          have : goodCell toFloat headers row col = none := by
            simp [goodCell, hluc, hstrip]
          rw [List.filterMap_cons, this]
        · rcases hfl : toFloat (stripStr v) with _ | f
          · have : cells_loop toFloat headers row (col :: rest) acc =
                cells_loop toFloat headers row rest acc := by
              simp only [cells_loop, hluc, if_neg hstrip, hfl]
            rw [this, ih acc (fun c hc => hnc c (by simp [hc]))
              (fun c hc p hp => hfresh c (by simp [hc]) p hp) hndr]
            have : goodCell toFloat headers row col = none := by
              simp [goodCell, hluc, if_neg hstrip, hfl]
            rw [List.filterMap_cons, this]
          · have hins : dictInsert acc col f = acc ++ [(col, f)] :=
              dictInsert_of_fresh acc col f (fun p hp => hfresh col (by simp) p hp)
            have : cells_loop toFloat headers row (col :: rest) acc =
                cells_loop toFloat headers row rest (acc ++ [(col, f)]) := by
              simp only [cells_loop, hluc, if_neg hstrip, hfl, hins]
            rw [this, ih (acc ++ [(col, f)]) (fun c hc => hnc c (by simp [hc]))
              (fun c hc p hp => by
                rcases List.mem_append.1 hp with hp' | hp'
                · exact hfresh c (by simp [hc]) p hp'
                · simp only [List.mem_singleton] at hp'
                  subst hp'
                  intro hcon
                  exact hcr (by rw [show col = c from hcon]; exact hc)) hndr]
            have : goodCell toFloat headers row col = some (col, f) := by
              simp [goodCell, hluc, if_neg hstrip, hfl]
            rw [List.filterMap_cons, this, List.append_assoc]
            rfl

lemma expected_pos_headers_nodup : expected_pos_headers.Nodup := by decide

/-- Claim C4 (amended): a missing `Stack` column header fails the whole load
(empty table); rows whose stack cell is empty or unparseable are skipped with
the rest of the table intact; within a row, malformed seat cells are skipped
with the rest of the row intact; but a non-blank row too short to fill the
`Stack` cell raises (`None.strip()`), is caught by the blanket `except`, and
also fails the whole load. -/
theorem C4_push_fold_csv (toFloat : Str → Option ℚ) (headers : List Str) :
    (strOf "Stack" ∉ headers → ∀ rows, parse_push_fold_csv toFloat headers rows = []) ∧
    (∀ row rest, row ≠ [] →
      (∀ v, lookupCell headers row (strOf "Stack") = some (some v) →
        stripStr v = [] ∨ toFloat (stripStr v) = none) →
      lookupCell headers row (strOf "Stack") ≠ some none →
      parse_push_fold_csv toFloat headers (row :: rest) =
        parse_push_fold_csv toFloat headers rest) ∧
    (∀ row v q, lookupCell headers row (strOf "Stack") = some (some v) →
      stripStr v ≠ [] → toFloat (stripStr v) = some q →
      (∀ col ∈ expected_pos_headers, lookupCell headers row col ≠ some none) →
      process_row toFloat headers row =
        some (some (q, expected_pos_headers.filterMap (goodCell toFloat headers row)))) ∧
    (∀ row rest, row ≠ [] → strOf "Stack" ∈ headers →
      lookupCell headers row (strOf "Stack") = some none →
      parse_push_fold_csv toFloat headers (row :: rest) = []) := by
  refine ⟨?_, ?_, ?_, ?_⟩
  · intro hno rows
    unfold parse_push_fold_csv
    rw [if_pos (Or.inr hno)]
  · intro row rest hrow hbad hnotrest
    have hpr : process_row toFloat headers row = some none := by
      unfold process_row
      rcases hluc : lookupCell headers row (strOf "Stack") with _ | hv
      · rfl
      · rcases hv with _ | v
        · exact absurd hluc hnotrest
        · rcases hbad v hluc with hempty | hfl
          · simp [hempty]
          · by_cases hempty : stripStr v = []
            · simp [hempty]
            · simp [hempty, hfl]
    unfold parse_push_fold_csv
    by_cases hhead : headers = [] ∨ strOf "Stack" ∉ headers
    · rw [if_pos hhead, if_pos hhead]
    · rw [if_neg hhead, if_neg hhead]
      have : rows_loop toFloat headers (row :: rest) [] =
          rows_loop toFloat headers rest [] := by
        simp only [rows_loop, if_neg hrow, hpr]
      rw [this]
  · intro row v q hluc hne hfl hnc
    unfold process_row
    rw [hluc]
    simp only [if_neg hne, hfl]
    rw [cells_loop_eq toFloat headers row expected_pos_headers [] hnc
      (by intro c _ p hp; simp at hp) expected_pos_headers_nodup]
    simp
  · intro row rest hrow hmem hluc
    have hpr : process_row toFloat headers row = none := by
      unfold process_row
      rw [hluc]
    unfold parse_push_fold_csv
    rw [if_neg (by
      rintro (hcon | hcon)
      · rw [hcon] at hmem; simp at hmem
      · exact hcon hmem)]
    have : rows_loop toFloat headers (row :: rest) [] = none := by
      simp only [rows_loop, if_neg hrow, hpr]
    rw [this]

/-- Counterexample to C4 as stated: with header `SB,Stack`, the malformed
(short) row `["10"]` is not skipped individually - it empties the whole
table, while the same data without it parses fine. -/
theorem C4_counterexample :
    parse_push_fold_csv natFloat [strOf "SB", strOf "Stack"]
      [[strOf "10", strOf "5"], [strOf "10"]] = [] ∧
    parse_push_fold_csv natFloat [strOf "SB", strOf "Stack"]
      [[strOf "10", strOf "5"]] = [(5, [(strOf "SB", 10)])] := by
  constructor <;> decide

/-- Witness for C4 at concrete inputs: a missing `Stack` header empties the
load, and a row with an unparseable stack value is skipped individually. -/
theorem C4_witness :
    parse_push_fold_csv natFloat [strOf "SB", strOf "BB"] [[strOf "10", strOf "5"]] = [] ∧
    parse_push_fold_csv natFloat [strOf "Stack", strOf "SB"]
      [[strOf "bad", strOf "50"], [strOf "3", strOf "35"]] =
      parse_push_fold_csv natFloat [strOf "Stack", strOf "SB"] [[strOf "3", strOf "35"]] := by
  constructor
  · exact (C4_push_fold_csv natFloat [strOf "SB", strOf "BB"]).1 (by decide) _
  · refine (C4_push_fold_csv natFloat [strOf "Stack", strOf "SB"]).2.1
      [strOf "bad", strOf "50"] [[strOf "3", strOf "35"]] (by decide) ?_ (by decide)
    intro v hv
    have hl : lookupCell [strOf "Stack", strOf "SB"] [strOf "bad", strOf "50"]
        (strOf "Stack") = some (some (strOf "bad")) := by decide
    rw [hl] at hv
    injection hv with hv
    injection hv with hv
    subst hv
    right
    decide

/- ## `get_push_fold_advice` (poker_logic.py lines 221-276) -/

/-- Python `dict.get(key)` on an association list with unique keys. -/
def dictGet {α β : Type} [DecidableEq α] : List (α × β) → α → Option β
  | [], _ => none
  | (k, v) :: rest, key => if k = key then some v else dictGet rest key

/-- Ascending comparator on stack sizes, for `sorted(PUSH_FOLD_RANGES.keys())`. -/
def qLe (a b : ℚ) : Bool := decide (a ≤ b)

/-- Python `min(lst, key=f)` on `best :: xs`: keeps the first strict minimiser. -/
def pyMinBy (f : ℚ → ℚ) : ℚ → List ℚ → ℚ
  | best, [] => best
  | best, x :: rest => pyMinBy f (if f x < f best then x else best) rest

/-- The distinct message shapes `get_push_fold_advice` can return; each error
string of the source is one constructor carrying its formatted parameters. -/
inductive PFMsg where
  | invalidStack : PFMsg
  | dataNotLoaded : PFMsg
  | invalidPosition : Str → PFMsg
  | invalidPlayers : PFMsg
  | noStackData : PFMsg
  | dataNotFound : ℚ → PFMsg
  | positionNotFound : Str → ℚ → PFMsg
  | pushTop : ℚ → PFMsg
deriving DecidableEq

/-- `get_push_fold_advice` from `poker_logic.py`: the if-chain of validations,
then the closest-stack lookup `min(sorted(keys), key=lambda x: abs(x - stack_bb))`
and the two dictionary lookups. The result models the source 4-tuple, with the
`tips` string (a pure format of the same parameters) folded into the message. -/
def get_push_fold_advice (ranges : List (ℚ × List (Str × ℚ))) (stack_bb : ℚ)
    (position : Str) (players_left : ℤ) : PFMsg × List Str × Option ℚ :=
  if stack_bb ≤ 0 then (PFMsg.invalidStack, [], none)
  else if ranges = [] then (PFMsg.dataNotLoaded, [], none)
  else if position ∉ expected_pos_headers then (PFMsg.invalidPosition position, [], none)
  else if players_left < 2 ∨ 10 < players_left then (PFMsg.invalidPlayers, [], none)
  else
    match sortBy qLe (ranges.map Prod.fst) with
    | [] => (PFMsg.noStackData, [], none)
    | k :: rest =>
      match dictGet ranges (pyMinBy (fun x => |x - stack_bb|) k rest) with
      | none => (PFMsg.dataNotFound (pyMinBy (fun x => |x - stack_bb|) k rest), [], none)
      | some sub =>
        match dictGet sub position with
        | none =>
          (PFMsg.positionNotFound position (pyMinBy (fun x => |x - stack_bb|) k rest),
            [], none)
        | some pct => (PFMsg.pushTop pct, get_top_hands_by_percentage pct, some pct)

lemma dictGet_eq_some {β : Type} :
    ∀ (ranges : List (ℚ × β)) (k : ℚ), k ∈ ranges.map Prod.fst →
      ∃ v, dictGet ranges k = some v
  | [], k, h => by simp at h
  | (k', v') :: rest, k, h => by
    by_cases hk : k' = k
    · exact ⟨v', by simp [dictGet, hk]⟩
    · have hmem : k ∈ rest.map Prod.fst := by
        rcases List.mem_map.1 h with ⟨p, hp, hpk⟩
        rcases List.mem_cons.1 hp with rfl | hp'
        · exact absurd hpk hk
        · exact List.mem_map.2 ⟨p, hp', hpk⟩
      rcases dictGet_eq_some rest k hmem with ⟨v, hv⟩
      exact ⟨v, by simp [dictGet, hk, hv]⟩

lemma insertSorted_q_sorted (x : ℚ) :
    ∀ {l : List ℚ}, l.Pairwise (· ≤ ·) → (insertSorted qLe x l).Pairwise (· ≤ ·) := by
  intro l
  induction l with
  | nil => intro _; simp [insertSorted]
  | cons y ys ih =>
    intro hs
    have hys := (List.pairwise_cons.1 hs).2
    have hyall := (List.pairwise_cons.1 hs).1
    by_cases h : qLe x y = true
    · have hxy : x ≤ y := by simpa [qLe] using h
      simp only [insertSorted, if_pos h]
      refine List.pairwise_cons.2 ⟨?_, hs⟩
      intro b hb
      rcases List.mem_cons.1 hb with rfl | hb'
      · exact hxy
      · exact hxy.trans (hyall b hb')
    · have hyx : y ≤ x := by
        have := (by simpa [qLe] using h : ¬ x ≤ y)
        linarith
      simp only [insertSorted, if_neg h]
      refine List.pairwise_cons.2 ⟨?_, ih hys⟩
      intro b hb
      rcases (mem_insertSorted qLe x b ys).1 hb with rfl | hb'
      · exact hyx
      · exact hyall b hb'

lemma sortBy_q_sorted : ∀ l : List ℚ, (sortBy qLe l).Pairwise (· ≤ ·) := by
  intro l
  induction l with
  | nil => simp [sortBy]
  | cons x xs ih => exact insertSorted_q_sorted x ih

/-- Python `min` over an ascending-sorted list with key `abs (. - s)`: the
result is a member, attains the minimum distance, and among equal distances is
the least (first-encountered) stack. -/
lemma pyMinBy_spec (s : ℚ) :
    ∀ (xs : List ℚ) (best : ℚ), (best :: xs).Pairwise (· ≤ ·) →
      pyMinBy (fun x => |x - s|) best xs ∈ best :: xs ∧
      (∀ y ∈ best :: xs, |pyMinBy (fun x => |x - s|) best xs - s| ≤ |y - s|) ∧
      (∀ y ∈ best :: xs, |y - s| = |pyMinBy (fun x => |x - s|) best xs - s| →
        pyMinBy (fun x => |x - s|) best xs ≤ y) := by
  intro xs
  induction xs with
  | nil =>
    intro best _
    refine ⟨by simp [pyMinBy], ?_, ?_⟩
    · intro y hy
      rcases List.mem_singleton.1 hy with rfl
      simp [pyMinBy]
    · intro y hy _
      rcases List.mem_singleton.1 hy with rfl
      simp [pyMinBy]
  | cons x rest ih =>
    intro best hp
    have hbx : best ≤ x := (List.pairwise_cons.1 hp).1 x (by simp)
    have hball : ∀ y ∈ x :: rest, best ≤ y := (List.pairwise_cons.1 hp).1
    have hp2 : (x :: rest).Pairwise (· ≤ ·) := (List.pairwise_cons.1 hp).2
    have hxall : ∀ y ∈ rest, x ≤ y := (List.pairwise_cons.1 hp2).1
    have hprest : rest.Pairwise (· ≤ ·) := (List.pairwise_cons.1 hp2).2
    have hstep : pyMinBy (fun z => |z - s|) best (x :: rest) =
        pyMinBy (fun z => |z - s|) (if |x - s| < |best - s| then x else best) rest := rfl
    by_cases hlt : |x - s| < |best - s|
    · have hp' : (x :: rest).Pairwise (· ≤ ·) := hp2
      rcases ih x hp' with ⟨hmem, hmin, htie⟩
      rw [hstep, if_pos hlt]
      refine ⟨?_, ?_, ?_⟩
      · exact List.mem_cons_of_mem best hmem
      · intro y hy
        rcases List.mem_cons.1 hy with rfl | hy'
        · exact le_of_lt (lt_of_le_of_lt (hmin x (by simp)) hlt)
        · exact hmin y hy'
      · intro y hy heq
        rcases List.mem_cons.1 hy with rfl | hy'
        · exact absurd heq (by
            have := lt_of_le_of_lt (hmin x (by simp)) hlt
            intro hcon
            rw [hcon] at this
            exact lt_irrefl _ this)
        · exact htie y hy' heq
    · have hle : |best - s| ≤ |x - s| := not_lt.1 hlt
      have hp' : (best :: rest).Pairwise (· ≤ ·) := by
        refine List.pairwise_cons.2 ⟨?_, hprest⟩
        intro y hy
        exact hball y (by simp [hy])
      rcases ih best hp' with ⟨hmem, hmin, htie⟩
      rw [hstep, if_neg hlt]
      refine ⟨?_, ?_, ?_⟩
      · rcases List.mem_cons.1 hmem with h | h
        · simp [h]
        · simp [h]
      · intro y hy
        rcases List.mem_cons.1 hy with rfl | hy'
        · exact hmin y (by simp)
        · rcases List.mem_cons.1 hy' with rfl | hy''
          · exact le_trans (hmin best (by simp)) hle
          · exact hmin y (by simp [hy''])
      · intro y hy heq
        rcases List.mem_cons.1 hy with rfl | hy'
        · exact htie y (by simp) heq
        · rcases List.mem_cons.1 hy' with rfl | hy''
          · have hrb : |pyMinBy (fun z => |z - s|) best rest - s| ≤ |best - s| :=
              hmin best (by simp)
            have hbeq : |best - s| = |pyMinBy (fun z => |z - s|) best rest - s| := by
              have h1 : |best - s| ≤ |y - s| := hle
              rw [heq] at h1
              exact le_antisymm h1 hrb
            exact le_trans (htie best (by simp) hbeq) hbx
          · exact htie y (by simp [hy'']) heq

/-- Claim C5: after the input validations, `get_push_fold_advice` selects the
stored stack key at minimum absolute distance from the requested depth, ties
going to the least key (the first in ascending sorted order); an empty table,
or a seat column absent for the selected key, yields a distinguishable error
result with `percentage = None`, while a present seat column yields the
push-top advice with its percentage and range. -/
theorem C5_push_fold_advice_lookup (ranges : List (ℚ × List (Str × ℚ)))
    (stack_bb : ℚ) (position : Str) (players_left : ℤ)
    (hstack : 0 < stack_bb) (hpos : position ∈ expected_pos_headers)
    (hpl2 : 2 ≤ players_left) (hpl10 : players_left ≤ 10) :
    (ranges = [] →
      get_push_fold_advice ranges stack_bb position players_left =
        (PFMsg.dataNotLoaded, [], none)) ∧
    (ranges ≠ [] → ∃ k sub,
      k ∈ ranges.map Prod.fst ∧
      dictGet ranges k = some sub ∧
      (∀ j ∈ ranges.map Prod.fst, |k - stack_bb| ≤ |j - stack_bb|) ∧
      (∀ j ∈ ranges.map Prod.fst, |j - stack_bb| = |k - stack_bb| → k ≤ j) ∧
      (dictGet sub position = none →
        get_push_fold_advice ranges stack_bb position players_left =
          (PFMsg.positionNotFound position k, [], none)) ∧
      (∀ pct, dictGet sub position = some pct →
        get_push_fold_advice ranges stack_bb position players_left =
          (PFMsg.pushTop pct, get_top_hands_by_percentage pct, some pct))) := by
  have h0 : ¬ stack_bb ≤ 0 := not_le.2 hstack
  have hpl : ¬ (players_left < 2 ∨ 10 < players_left) := by omega
  constructor
  · intro hnil
    subst hnil
    simp [get_push_fold_advice, h0]
  · intro hne
    have hmapne : ranges.map Prod.fst ≠ [] := by
      simpa [List.map_eq_nil_iff] using hne
    rcases hsort : sortBy qLe (ranges.map Prod.fst) with _ | ⟨k0, rest⟩
    · have hpnil : (ranges.map Prod.fst).Perm ([] : List ℚ) := by
        rw [← hsort]; exact (sortBy_perm qLe _).symm
      exact absurd hpnil.eq_nil hmapne
    · have hperm : (k0 :: rest).Perm (ranges.map Prod.fst) := by
        rw [← hsort]; exact sortBy_perm qLe (ranges.map Prod.fst)
      have hsorted : (k0 :: rest).Pairwise (· ≤ ·) := by
        rw [← hsort]; exact sortBy_q_sorted (ranges.map Prod.fst)
      rcases pyMinBy_spec stack_bb rest k0 hsorted with ⟨hmem, hmin, htie⟩
      have hkmem : pyMinBy (fun x => |x - stack_bb|) k0 rest ∈ ranges.map Prod.fst :=
        hperm.mem_iff.1 hmem
      rcases dictGet_eq_some ranges _ hkmem with ⟨sub, hsub⟩
      refine ⟨pyMinBy (fun x => |x - stack_bb|) k0 rest, sub, hkmem, hsub, ?_, ?_, ?_, ?_⟩
      · intro j hj
        exact hmin j (hperm.mem_iff.2 hj)
      · intro j hj hje
        exact htie j (hperm.mem_iff.2 hj) hje
      · intro hseat
        simp [get_push_fold_advice, h0, hne, hpos, hpl, hsort, hsub, hseat]
      · intro pct hseat
        simp [get_push_fold_advice, h0, hne, hpos, hpl, hsort, hsub, hseat]

/-- Witness for C5 at a concrete table exhibiting a distance tie: stacks 3 and
7 are both 2BB from a requested 5BB stack, and the advice uses the smaller
stack 3. -/
theorem C5_witness :
    (([(3, [(strOf "SB", 35)]), (7, [])] : List (ℚ × List (Str × ℚ))) = [] →
      get_push_fold_advice [(3, [(strOf "SB", 35)]), (7, [])] 5 (strOf "SB") 5 =
        (PFMsg.dataNotLoaded, [], none)) ∧
    (([(3, [(strOf "SB", 35)]), (7, [])] : List (ℚ × List (Str × ℚ))) ≠ [] → ∃ k sub,
      k ∈ ([(3, [(strOf "SB", 35)]), (7, [])] : List (ℚ × List (Str × ℚ))).map Prod.fst ∧
      dictGet [(3, [(strOf "SB", 35)]), (7, [])] k = some sub ∧
      (∀ j ∈ ([(3, [(strOf "SB", 35)]), (7, [])] :
          List (ℚ × List (Str × ℚ))).map Prod.fst, |k - 5| ≤ |j - 5|) ∧
      (∀ j ∈ ([(3, [(strOf "SB", 35)]), (7, [])] :
          List (ℚ × List (Str × ℚ))).map Prod.fst, |j - 5| = |k - 5| → k ≤ j) ∧
      (dictGet sub (strOf "SB") = none →
        get_push_fold_advice [(3, [(strOf "SB", 35)]), (7, [])] 5 (strOf "SB") 5 =
          (PFMsg.positionNotFound (strOf "SB") k, [], none)) ∧
      (∀ pct, dictGet sub (strOf "SB") = some pct →
        get_push_fold_advice [(3, [(strOf "SB", 35)]), (7, [])] 5 (strOf "SB") 5 =
          (PFMsg.pushTop pct, get_top_hands_by_percentage pct, some pct))) :=
  C5_push_fold_advice_lookup [(3, [(strOf "SB", 35)]), (7, [])] 5 (strOf "SB") 5
    (by norm_num) (by decide) (by decide) (by decide)

/- ## The Monte-Carlo equity engine (poker_logic.py lines 340-527 and the
per-trial body of poker_logic_bkp.py lines 660-707) -/

/-- `SUITS_TREYS = "shdc"`. -/
def SUITS_TREYS : Str := strOf "shdc"

/-- A treys card: its identity is its rank and suit characters. -/
structure Card where
  rank : Char
  suit : Char
deriving DecidableEq

/-- `treys.Card.new(rank + suit)`: raises (here `none`) unless the rank is one
of the 13 rank characters and the suit one of `shdc`. -/
def cardNew (r s : Char) : Option Card :=
  if r ∈ RANKS ∧ s ∈ SUITS_TREYS then some ⟨r, s⟩ else none

/-- `parse_card_input` from `poker_logic.py`: 2 characters, rank upper-cased,
suit lower-cased, both validated. -/
def parse_card_input (card_text : Str) : Option Str :=
  match card_text with
  | [c1, c2] =>
    if c1.toUpper ∈ RANKS ∧ c2.toLower ∈ SUITS_TREYS then
      some [c1.toUpper, c2.toLower]
    else none
  | _ => none

/-- `Card.new` applied to a 2-character string. -/
def cardNewStr : Str → Option Card
  | [r, s] => cardNew r s
  | _ => none

/-- The card loop of `board_string_to_treys_cards`: valid card strings are
collected, empty strings are skipped, anything else aborts with `None`. -/
def board_loop : List Str → List Card → Option (List Card)
  | [], cards => some cards
  | card_str :: rest, cards =>
    match parse_card_input card_str with
    | some parsed =>
      match cardNewStr parsed with
      | some c => board_loop rest (cards ++ [c])
      | none => none
    | none => if card_str = [] then board_loop rest cards else none

def board_string_to_treys_cards (board_list : List Str) : Option (List Card) :=
  board_loop board_list []

/-- `hand_string_to_treys_cards` from `poker_logic.py`. The random suits are
explicit arguments: `suit1, suit2` stand for `random.sample(SUITS_TREYS, 2)`
and `choiceSuit` for `random.choice(SUITS_TREYS)`. -/
def hand_string_to_treys_cards (suit1 suit2 choiceSuit : Char) (hand_str : Str) :
    Option (List Card) :=
  match hand_str with
  | [a, b, c, d] =>
    match cardNew a b, cardNew c d with
    | some card1, some card2 => if card1 = card2 then none else some [card1, card2]
    | _, _ => none
  | [r1, r2] =>
    if r1 ∈ RANKS ∧ r2 = r1 then
      match cardNew r1 suit1, cardNew r1 suit2 with
      | some c1, some c2 => some [c1, c2]
      | _, _ => none
    else none
  | [r1, r2, t] =>
    if r1 ∈ RANKS ∧ r2 ∈ RANKS ∧ r1 ≠ r2 then
      if t = 's' then
        match cardNew r1 choiceSuit, cardNew r2 choiceSuit with
        | some c1, some c2 => some [c1, c2]
        | _, _ => none
      else if t = 'o' then
        match cardNew r1 suit1, cardNew r2 suit2 with
        | some c1, some c2 => some [c1, c2]
        | _, _ => none
      else none
    else none
  | _ => none

/-- `itertools.combinations(l, 2)` in list order. -/
def combos2 {α : Type} : List α → List (α × α)
  | [] => []
  | x :: rest => rest.map (fun y => (x, y)) ++ combos2 rest

/-- `generate_combos` from `poker_logic.py`: all specific 2-card combos of a
list of canonical classes; malformed entries contribute nothing. -/
def generate_combos (hand_range_list : List Str) : List (List Card) :=
  hand_range_list.flatMap (fun hand_str =>
    match hand_str with
    | [r1, r2] =>
      if r1 ∈ RANKS ∧ r2 = r1 then
        (combos2 SUITS_TREYS).filterMap (fun p =>
          match cardNew r1 p.1, cardNew r1 p.2 with
          | some c1, some c2 => some [c1, c2]
          | _, _ => none)
      else []
    | [r1, r2, t] =>
      if r1 ∈ RANKS ∧ r2 ∈ RANKS ∧ r1 ≠ r2 then
        if t = 's' then
          SUITS_TREYS.filterMap (fun s =>
            match cardNew r1 s, cardNew r2 s with
            | some c1, some c2 => some [c1, c2]
            | _, _ => none)
        else if t = 'o' then
          SUITS_TREYS.flatMap (fun s1 =>
            SUITS_TREYS.filterMap (fun s2 =>
              if s1 ≠ s2 then
                match cardNew r1 s1, cardNew r2 s2 with
                | some c1, some c2 => some [c1, c2]
                | _, _ => none
              else none))
        else []
      else []
    | _ => [])

/-- The random inputs of one simulation batch: for trial `i`, `pick i` chooses
the villain combo (`random.choice`, index taken mod the count) and
`deckOrder i` is the shuffled order of `Deck()`. -/
structure SimOracle where
  pick : ℕ → ℕ
  deckOrder : ℕ → List Card

/-- The 52-card deck. -/
def fullDeck : List Card := RANKS.flatMap (fun r => SUITS_TREYS.map (fun s => ⟨r, s⟩))

/-- One iteration of the simulation loop of `calculate_hand_vs_range_equity`
(poker_logic.py lines 504-523): `some (villain_hand, runout_board)` exactly
when the trial reaches the evaluations and is counted; `none` models every
`continue`. -/
def simTrial (hero board : List Card) (combos : List (List Card)) (ork : SimOracle)
    (i : ℕ) : Option (List Card × List Card) :=
  match combos with
  | [] => none
  | _ :: _ =>
    let villain_hand := combos.getD (ork.pick i % combos.length) []
    let current_dead := (hero ++ board) ++ villain_hand
    if ¬ current_dead.Nodup then none
    else
      let deck := (ork.deckOrder i).filter (fun c => decide (c ∉ current_dead))
      let cards_to_deal := 5 - board.length
      if 0 < cards_to_deal ∧ deck.length < cards_to_deal then none
      else
        let runout_board := board ++ deck.take cards_to_deal
        if runout_board.length ≠ 5 then none
        else some (villain_hand, runout_board)

/-- The trials of `for i in range(simulations)` that are counted in
`total_sims_run`. -/
def countedTrials (hero board : List Card) (combos : List (List Card))
    (ork : SimOracle) (sims : ℕ) : List (List Card × List Card) :=
  (List.range sims).filterMap (simTrial hero board combos ork)

/-- `calculate_hand_vs_range_equity` from `poker_logic.py`: validations, combo
generation and dead-card filtering, then the Monte-Carlo tally. `evalr` stands
for `treys.Evaluator().evaluate` (total: it does not raise on 2 + 5 cards),
and `none` models the `return None` paths. -/
def calculate_hand_vs_range_equity (evalr : List Card → List Card → ℕ)
    (suit1 suit2 choiceSuit : Char) (ork : SimOracle)
    (hero_hand_str : Str) (villain_range_list : List Str) (board_str_list : List Str)
    (simulations : ℕ) : Option ℚ :=
  match hand_string_to_treys_cards suit1 suit2 choiceSuit hero_hand_str with
  | none => none
  | some hero_cards =>
    if hero_cards = [] then none
    else if hero_cards.dedup.length ≠ 2 then none
    else
      match board_string_to_treys_cards board_str_list with
      | none => none
      | some board_cards =>
        if 5 < board_cards.length then none
        else
          let known_dead_cards := hero_cards ++ board_cards
          if ¬ known_dead_cards.Nodup then none
          else
            let villain_combos_all := generate_combos villain_range_list
            if villain_combos_all = [] then none
            else
              let valid_villain_combos := villain_combos_all.filter
                (fun combo => ! combo.any (fun card => decide (card ∈ known_dead_cards)))
              if valid_villain_combos = [] then some 0
              else
                let counted := countedTrials hero_cards board_cards
                  valid_villain_combos ork simulations
                if counted.length = 0 then none
                else
                  let wins := counted.countP
                    (fun p => decide (evalr hero_cards p.2 < evalr p.1 p.2))
                  let ties := counted.countP
                    (fun p => decide (evalr hero_cards p.2 = evalr p.1 p.2))
                  some (((wins : ℚ) + (ties : ℚ) / 2) / ((counted.length : ℚ)) * 100)

/-- The per-attempt body of the while loop in the backup engine
(poker_logic_bkp.py lines 660-707), for one street: `some` exactly when the
attempt is tallied (`successful_sims += 1`), `none` for every `continue`.
`pick` and `deckOrder` are the attempt's random choice and shuffled deck. -/
def bkp_trial (hero current_board : List Card) (combos : List (List Card))
    (pick : ℕ) (deckOrder : List Card) : Option (List Card × List Card) :=
  match combos with
  | [] => none
  | _ :: _ =>
    let chosen_villain_hand := combos.getD (pick % combos.length) []
    let runout_dead := (hero ++ current_board) ++ chosen_villain_hand
    if ¬ runout_dead.Nodup then none
    else
      let deck := deckOrder.filter (fun c => decide (c ∉ runout_dead))
      if 5 < current_board.length then none
      else
        let cards_needed := 5 - current_board.length
        if 0 < cards_needed ∧ deck.length < cards_needed then none
        else
          let board_run := current_board ++ deck.take cards_needed
          if board_run.length ≠ 5 then none
          else if (hero ++ board_run).dedup.length ≠ 7 ∨
              (chosen_villain_hand ++ board_run).dedup.length ≠ 7 then none
          else some (chosen_villain_hand, board_run)

lemma fullDeck_nodup : fullDeck.Nodup := by decide

lemma getD_mem_of_lt {α : Type} :
    ∀ (l : List α) (n : ℕ) (d : α), n < l.length → l.getD n d ∈ l
  | [], n, d, h => by simp at h
  | x :: xs, 0, d, _ => by simp [List.getD]
  | x :: xs, n + 1, d, h => by
    have hrec := getD_mem_of_lt xs n d (by simpa using h)
    simpa [List.getD] using Or.inr hrec

/-- A list whose deduplication has the same length as the list itself has no
duplicates. -/
lemma nodup_of_dedup_length {l : List Card} (h : l.dedup.length = l.length) :
    l.Nodup :=
  List.dedup_eq_self.1 ((List.dedup_sublist l).eq_of_length h)

/-- Reassembling the dead-card invariant of one main-engine trial: if the dead
cards are distinct and the drawn cards are fresh and distinct, the whole
hero + villain + runout collection is distinct. -/
lemma trial_assemble (hero board villain taken : List Card)
    (hD : ((hero ++ board) ++ villain).Nodup)
    (htakenN : taken.Nodup)
    (htdead : ∀ c ∈ taken, ¬ c ∈ (hero ++ board) ++ villain) :
    ((hero ++ villain) ++ (board ++ taken)).Nodup := by
  obtain ⟨hhbN, hvN, hhbv⟩ := List.nodup_append.1 hD
  obtain ⟨hhN, hbN, hhb⟩ := List.nodup_append.1 hhbN
  have hhv : hero.Disjoint villain := fun a ha hv => hhbv (List.mem_append_left _ ha) hv
  have hbv : board.Disjoint villain := fun a ha hv => hhbv (List.mem_append_right _ ha) hv
  have hht : hero.Disjoint taken := fun a ha ht =>
    htdead a ht (List.mem_append_left _ (List.mem_append_left _ ha))
  have hbt : board.Disjoint taken := fun a ha ht =>
    htdead a ht (List.mem_append_left _ (List.mem_append_right _ ha))
  have hvt : villain.Disjoint taken := fun a ha ht =>
    htdead a ht (List.mem_append_right _ ha)
  refine List.Nodup.append (List.Nodup.append hhN hvN hhv)
    (List.Nodup.append hbN htakenN hbt) ?_
  intro a ha hr
  rcases List.mem_append.1 ha with ha' | ha' <;> rcases List.mem_append.1 hr with hr' | hr'
  · exact hhb ha' hr'
  · exact hht ha' hr'
  · exact hbv hr' ha'
  · exact hvt ha' hr'

/-- Every counted trial of the main engine has pairwise-distinct
hero + villain + runout cards and a 5-card runout. -/
lemma simTrial_sound (hero board : List Card) (combos : List (List Card))
    (ork : SimOracle) (i : ℕ) (hdeck : (ork.deckOrder i).Nodup)
    (p : List Card × List Card) (hp : simTrial hero board combos ork i = some p) :
    (hero ++ p.1 ++ p.2).Nodup ∧ p.2.length = 5 := by
  rcases combos with _ | ⟨c0, cs⟩
  · simp [simTrial] at hp
  · simp only [simTrial] at hp
    split_ifs at hp with h1 h2 h3
    injection hp with h
    subst h
    refine ⟨?_, not_ne_iff.1 h3⟩
    refine trial_assemble hero board _ _ h1 ?_ ?_
    · exact (List.take_sublist _ _).nodup (hdeck.filter _)
    · intro c hc
      have hcd := List.take_subset _ _ hc
      have hft := List.of_mem_filter hcd
      simpa using hft

/-- Reassembling the dead-card invariant of one backup-engine trial from its
explicit 7-distinct-cards checks. -/
lemma bkp_assemble (hero cb chosen board_run : List Card)
    (hD : ((hero ++ cb) ++ chosen).Nodup)
    (hN1 : (hero ++ board_run).Nodup)
    (hN2 : (chosen ++ board_run).Nodup) :
    ((hero ++ chosen) ++ board_run).Nodup := by
  obtain ⟨hhcbN, hchN, hhcbch⟩ := List.nodup_append.1 hD
  obtain ⟨hhN, hrunN, hhrun⟩ := List.nodup_append.1 hN1
  obtain ⟨hchN2, hrunN2, hchrun⟩ := List.nodup_append.1 hN2
  have hhch : hero.Disjoint chosen := fun a ha hc => hhcbch (List.mem_append_left _ ha) hc
  refine List.Nodup.append (List.Nodup.append hhN hchN2 hhch) hrunN ?_
  intro a ha hr
  rcases List.mem_append.1 ha with ha' | ha'
  · exact hhrun ha' hr
  · exact hchrun ha' hr

/-- Every tallied attempt of the backup engine has pairwise-distinct
hero + villain + runout cards and a 5-card final board. -/
lemma bkp_trial_sound (hero current_board : List Card) (combos : List (List Card))
    (pick : ℕ) (deckOrder : List Card)
    (hhero : hero.length = 2) (hcombos : ∀ c ∈ combos, c.length = 2)
    (p : List Card × List Card)
    (hp : bkp_trial hero current_board combos pick deckOrder = some p) :
    (hero ++ p.1 ++ p.2).Nodup ∧ p.2.length = 5 := by
  rcases combos with _ | ⟨c0, cs⟩
  · simp [bkp_trial] at hp
  · simp only [bkp_trial] at hp
    split_ifs at hp with h1 h2 h3 h4 h5
    injection hp with h
    subst h
    have hclen : ((c0 :: cs).getD (pick % (c0 :: cs).length) []).length = 2 :=
      hcombos _ (getD_mem_of_lt _ _ _ (Nat.mod_lt _ (by simp)))
    have hrun5 := not_ne_iff.1 h4
    have h51 := not_ne_iff.1 (not_or.1 h5).1
    have h52 := not_ne_iff.1 (not_or.1 h5).2
    refine ⟨?_, not_ne_iff.1 h4⟩
    refine bkp_assemble hero current_board _ _ h1 ?_ ?_
    · refine nodup_of_dedup_length ?_
      rw [h51, List.length_append, hhero, hrun5]
    · refine nodup_of_dedup_length ?_
      rw [h52, List.length_append, hclen, hrun5]

/-- Claim C9: dead-card discipline. In the main engine, under any random
choices with properly shuffled 52-card decks, every trial counted toward the
win/tie/loss tally has pairwise-distinct hero + opponent + runout cards and a
completed 5-card board; in the backup engine the same holds of every tallied
attempt (hero hands and range combos are 2-card as the callers produce them). -/
theorem C9_dead_card_discipline :
    (∀ (hero board : List Card) (combos : List (List Card)) (ork : SimOracle)
        (sims : ℕ),
      (∀ i, (ork.deckOrder i).Perm fullDeck) →
      ∀ p ∈ countedTrials hero board combos ork sims,
        (hero ++ p.1 ++ p.2).Nodup ∧ p.2.length = 5) ∧
    (∀ (hero current_board : List Card) (combos : List (List Card)) (pick : ℕ)
        (deckOrder : List Card),
      hero.length = 2 → (∀ c ∈ combos, c.length = 2) →
      ∀ p, bkp_trial hero current_board combos pick deckOrder = some p →
        (hero ++ p.1 ++ p.2).Nodup ∧ p.2.length = 5) := by
  constructor
  · intro hero board combos ork sims hdeck p hp
    rcases List.mem_filterMap.1 hp with ⟨i, _, heq⟩
    exact simTrial_sound hero board combos ork i
      ((hdeck i).nodup_iff.2 fullDeck_nodup) p heq
  · intro hero current_board combos pick deckOrder hhero hcombos p hp
    exact bkp_trial_sound hero current_board combos pick deckOrder hhero hcombos p hp

/-- Witness for C9 at concrete inputs: a river-board trial of each engine. -/
theorem C9_witness :
    (∀ i, ((fun (_ : ℕ) => fullDeck) i).Perm fullDeck) ∧
    (∀ p ∈ countedTrials [⟨'A','s'⟩, ⟨'K','d'⟩]
        [⟨'2','s'⟩, ⟨'3','s'⟩, ⟨'4','s'⟩, ⟨'5','s'⟩, ⟨'6','s'⟩]
        [[⟨'Q','s'⟩, ⟨'Q','h'⟩]] ⟨fun _ => 0, fun _ => fullDeck⟩ 1,
      (([⟨'A','s'⟩, ⟨'K','d'⟩] : List Card) ++ p.1 ++ p.2).Nodup ∧ p.2.length = 5) ∧
    (([⟨'A','s'⟩, ⟨'K','d'⟩] : List Card).length = 2 ∧
      (∀ c ∈ [[(⟨'Q','s'⟩ : Card), ⟨'Q','h'⟩]], c.length = 2) ∧
      bkp_trial [⟨'A','s'⟩, ⟨'K','d'⟩]
        [⟨'2','s'⟩, ⟨'3','s'⟩, ⟨'4','s'⟩, ⟨'5','s'⟩, ⟨'6','s'⟩]
        [[⟨'Q','s'⟩, ⟨'Q','h'⟩]] 0 [] =
        some ([⟨'Q','s'⟩, ⟨'Q','h'⟩],
          [⟨'2','s'⟩, ⟨'3','s'⟩, ⟨'4','s'⟩, ⟨'5','s'⟩, ⟨'6','s'⟩]) ∧
      (([⟨'A','s'⟩, ⟨'K','d'⟩] : List Card) ++ ([⟨'Q','s'⟩, ⟨'Q','h'⟩] : List Card) ++
        ([⟨'2','s'⟩, ⟨'3','s'⟩, ⟨'4','s'⟩, ⟨'5','s'⟩, ⟨'6','s'⟩] : List Card)).Nodup) := by
  refine ⟨fun _ => List.Perm.refl _, ?_, by decide, by decide, by decide, ?_⟩
  · exact C9_dead_card_discipline.1 _ _ _ _ 1 (fun _ => List.Perm.refl _)
  · exact (C9_dead_card_discipline.2 [⟨'A','s'⟩, ⟨'K','d'⟩]
      [⟨'2','s'⟩, ⟨'3','s'⟩, ⟨'4','s'⟩, ⟨'5','s'⟩, ⟨'6','s'⟩]
      [[⟨'Q','s'⟩, ⟨'Q','h'⟩]] 0 [] (by decide) (by decide)
      ([⟨'Q','s'⟩, ⟨'Q','h'⟩],
        [⟨'2','s'⟩, ⟨'3','s'⟩, ⟨'4','s'⟩, ⟨'5','s'⟩, ⟨'6','s'⟩]) (by decide)).1

/-- Claim C3 (amended): in `poker_logic.py`, after the input validations pass
and the range generates combos, dead-card filtering that leaves no opponent
combination returns `0.0` - a plain zero, not the distinguishable absent
value - while zero successfully completed Monte-Carlo trials return `None`
(absent). The live engine also reports one overall number, not one per
street. -/
theorem C3_equity_zero_vs_absent (evalr : List Card → List Card → ℕ)
    (suit1 suit2 choiceSuit : Char) (ork : SimOracle)
    (hero_hand_str : Str) (range_list board_list : List Str) (sims : ℕ)
    (hero_cards board_cards : List Card)
    (hhero : hand_string_to_treys_cards suit1 suit2 choiceSuit hero_hand_str =
      some hero_cards)
    (hne : hero_cards ≠ [])
    (h2 : hero_cards.dedup.length = 2)
    (hboard : board_string_to_treys_cards board_list = some board_cards)
    (hb5 : board_cards.length ≤ 5)
    (hnd : (hero_cards ++ board_cards).Nodup)
    (hcombos : generate_combos range_list ≠ []) :
    ((generate_combos range_list).filter
        (fun combo => ! combo.any (fun card =>
          decide (card ∈ hero_cards ++ board_cards))) = [] →
      calculate_hand_vs_range_equity evalr suit1 suit2 choiceSuit ork
        hero_hand_str range_list board_list sims = some 0) ∧
    ((generate_combos range_list).filter
        (fun combo => ! combo.any (fun card =>
          decide (card ∈ hero_cards ++ board_cards))) ≠ [] →
      countedTrials hero_cards board_cards
        ((generate_combos range_list).filter
          (fun combo => ! combo.any (fun card =>
            decide (card ∈ hero_cards ++ board_cards)))) ork sims = [] →
      calculate_hand_vs_range_equity evalr suit1 suit2 choiceSuit ork
        hero_hand_str range_list board_list sims = none) := by
  constructor
  · intro hfilter
    simp only [calculate_hand_vs_range_equity, hhero, hboard]
    rw [if_neg hne, if_neg (not_ne_iff.2 h2), if_neg (not_lt.2 hb5),
      if_neg (not_not_intro hnd), if_neg hcombos, hfilter, if_pos rfl]
  · intro hfilter hcounted
    simp only [calculate_hand_vs_range_equity, hhero, hboard]
    rw [if_neg hne, if_neg (not_ne_iff.2 h2), if_neg (not_lt.2 hb5),
      if_neg (not_not_intro hnd), if_neg hcombos, if_neg hfilter, hcounted]
    simp

/-- Counterexample to C3 as stated: with hero `AsKd` and board `Ah Ad Ac`,
every `AA` combo shares a card with the dead cards; the function reports
equity `0.0`, not an absent value. -/
theorem C3_counterexample :
    calculate_hand_vs_range_equity (fun _ _ => 0) 's' 'h' 's'
      ⟨fun _ => 0, fun _ => []⟩ (strOf "AsKd") [strOf "AA"]
      [strOf "Ah", strOf "Ad", strOf "Ac"] 1 = some 0 := by decide

/-- Witness for C3 at concrete inputs: preflop against `QQ` with decks that
never hold enough cards, no trial completes and the result is `None`. -/
theorem C3_witness :
    ((generate_combos [strOf "QQ"]).filter
        (fun combo => ! combo.any (fun card =>
          decide (card ∈ ([⟨'A','s'⟩, ⟨'K','d'⟩] : List Card) ++ []))) = [] →
      calculate_hand_vs_range_equity (fun _ _ => 0) 's' 'h' 's'
        ⟨fun _ => 0, fun _ => []⟩ (strOf "AsKd") [strOf "QQ"] [] 2 = some 0) ∧
    ((generate_combos [strOf "QQ"]).filter
        (fun combo => ! combo.any (fun card =>
          decide (card ∈ ([⟨'A','s'⟩, ⟨'K','d'⟩] : List Card) ++ []))) ≠ [] →
      countedTrials [⟨'A','s'⟩, ⟨'K','d'⟩] []
        ((generate_combos [strOf "QQ"]).filter
          (fun combo => ! combo.any (fun card =>
            decide (card ∈ ([⟨'A','s'⟩, ⟨'K','d'⟩] : List Card) ++ []))))
        ⟨fun _ => 0, fun _ => []⟩ 2 = [] →
      calculate_hand_vs_range_equity (fun _ _ => 0) 's' 'h' 's'
        ⟨fun _ => 0, fun _ => []⟩ (strOf "AsKd") [strOf "QQ"] [] 2 = none) :=
  C3_equity_zero_vs_absent (fun _ _ => 0) 's' 'h' 's' ⟨fun _ => 0, fun _ => []⟩
    (strOf "AsKd") [strOf "QQ"] [] 2 [⟨'A','s'⟩, ⟨'K','d'⟩] []
    (by decide) (by decide) (by decide) (by decide) (by decide) (by decide) (by decide)
